import Mathlib

/-!
Verification of the hermes code-navigation engine (Rust) against its
natural-language specification, via a shallow embedding of the relevant
source functions in Lean.

Modelling conventions, applied throughout:
  - Rust f64 scores are embedded as exact rationals; every score and
    threshold appearing in the code is a small decimal, so rational
    arithmetic coincides with the double arithmetic the code performs.
  - UUID v4 identifiers (graph_builders.rs) are embedded as naturals drawn
    from a monotone counter held in the store: each builder call yields a
    fresh identifier distinct from every identifier already present, which
    is exactly the property the code relies on.
  - The SQLite tables are embedded as Lean lists; INSERT OR REPLACE,
    INSERT OR IGNORE, DELETE and SELECT ... WHERE are embedded as the
    corresponding list operations.  A single project id is modelled, so the
    project_id column and its WHERE filters are dropped.
  - std::fs reads are embedded as lookups in an explicit file-system value.
    A file whose bytes are not valid UTF-8 (or that cannot be read) is a
    lookup yielding FileData.invalid: std::fs::read_to_string fails on it.
  - SHA-256 (hash_tracker.rs::compute_hash) is embedded as an arbitrary
    function parameter hash : String -> String; no theorem below needs more
    than determinism of hashing.
-/

namespace Hermes

/-! Data model, from src/graph.rs. -/

inductive NodeType where
  | file | module | function | struct_ | impl_ | trait_ | enum_ | concept | document
deriving DecidableEq, Repr

/-- String form of a node type, from src/graph.rs NodeType::as_str. -/
def NodeType.asStr : NodeType → String
  | .file => "file"
  | .module => "module"
  | .function => "function"
  | .struct_ => "struct"
  | .impl_ => "impl"
  | .trait_ => "trait"
  | .enum_ => "enum"
  | .concept => "concept"
  | .document => "document"

inductive EdgeType where
  | calls | imports | implements | dependsOn | contains | documents
deriving DecidableEq, Repr

/-- A graph node, from src/graph.rs struct Node (single project; UUID ids as Nat). -/
structure Node where
  id : Nat
  name : String
  node_type : NodeType
  file_path : Option String
  start_line : Option Int
  end_line : Option Int
  summary : Option String
  content_hash : Option String
deriving DecidableEq, Repr

/-- A graph edge, from src/graph.rs struct Edge. -/
structure Edge where
  id : Nat
  source_id : Nat
  target_id : Nat
  edge_type : EdgeType
  weight : ℚ
deriving DecidableEq, Repr

/-! Search tiers and results, from src/search/mod.rs. -/

inductive SearchTier where
  | l0Literal | l1Fts | l2Vector
deriving DecidableEq, Repr

structure SearchResult where
  node : Node
  score : ℚ
  tier : SearchTier
  matched_content : Option String
deriving DecidableEq, Repr

/-- Tier bonus used inside deduplicate_and_rank (src/search/mod.rs lines 229-233). -/
def tierBonus : SearchTier → ℚ
  | .l0Literal => 3/10
  | .l1Fts => 1/10
  | .l2Vector => 0

/-- Bonus-adjusted score of a candidate (score + tier_bonus in the source). -/
def boosted (r : SearchResult) : ℚ := r.score + tierBonus r.tier

/-- First-match lookup in the association-list model of the HashMap. -/
def lookupId : List (Nat × SearchResult) → Nat → Option SearchResult
  | [], _ => none
  | kv :: rest, i => if kv.1 = i then some kv.2 else lookupId rest i

/-- Update-in-place of every entry carrying a given key. -/
def updAt (key : Nat) (g : SearchResult → SearchResult) (acc : List (Nat × SearchResult)) :
    List (Nat × SearchResult) :=
  acc.map (fun kv => if kv.1 = key then (kv.1, g kv.2) else kv)

/-- One step of the HashMap entry() or_insert / and_modify logic of
deduplicate_and_rank: the kept value for a key is replaced only when the
incoming candidate has a strictly larger boosted score; an absent key is
inserted with the incoming candidate. -/
def insertBest (acc : List (Nat × SearchResult)) (r : SearchResult) :
    List (Nat × SearchResult) :=
  match lookupId acc r.node.id with
  | none => acc ++ [(r.node.id, r)]
  | some _ => updAt r.node.id (fun e => if boosted e < boosted r then r else e) acc

/-- The grouping fold of deduplicate_and_rank (src/search/mod.rs lines 226-252):
an association list from node id to the best candidate seen so far, in first
encounter order (the HashMap is modelled as an insertion-ordered association
list; no claim below depends on the map's iteration order). -/
def dedupBest (results : List SearchResult) : List (Nat × SearchResult) :=
  results.foldl insertBest []

/-- Descending raw-score order used by the final sort_by in deduplicate_and_rank. -/
def scoreGe (a b : SearchResult) : Prop := b.score ≤ a.score

instance : DecidableRel scoreGe := fun a b => inferInstanceAs (Decidable (b.score ≤ a.score))

instance : IsTotal SearchResult scoreGe := ⟨fun a b => le_total b.score a.score⟩

instance : IsTrans SearchResult scoreGe :=
  ⟨fun _ _ _ h1 h2 => le_trans h2 h1⟩

/-- SearchEngine::deduplicate_and_rank (src/search/mod.rs lines 225-262):
group by node id keeping the candidate with the highest bonus-adjusted score,
report the winner's raw score, sort descending by raw score, truncate. -/
def deduplicateAndRank (results : List SearchResult) (topK : Nat) : List SearchResult :=
  (List.insertionSort scoreGe ((dedupBest results).map (·.2))).take topK

/-- Outcome of one (cache-missing) SearchEngine::search call: the merged
result list plus which of the later tiers were actually invoked. -/
structure CascadeOutcome where
  results : List SearchResult
  ranL1 : Bool
  ranL2 : Bool
deriving DecidableEq, Repr

/-- Minimum score over the first top_k L0 results, folded against positive
infinity exactly as src/search/mod.rs lines 79-83 does with f64::INFINITY. -/
def minScoreTop (l0 : List SearchResult) (topK : Nat) : WithTop ℚ :=
  ((l0.take topK).map (fun r => ((r.score : ℚ) : WithTop ℚ))).foldr min ⊤

/-- The tier cascade of SearchEngine::search (src/search/mod.rs lines 65-121),
with the result cache elided (the claims concern a cache-missing call) and
the three tier functions supplied as the lists they return.  The ranL1 and
ranL2 flags record exactly the branches in which fts_search and
vector_search are invoked. -/
def searchCascade (l0 l1 l2 : List SearchResult) (topK : Nat) : CascadeOutcome :=
  if topK ≤ l0.length then
    if ((9/10 : ℚ) : WithTop ℚ) ≤ minScoreTop l0 topK then
      ⟨deduplicateAndRank l0 topK, false, false⟩
    else if ((8/10 : ℚ) : WithTop ℚ) ≤ minScoreTop l0 topK then
      ⟨deduplicateAndRank (l0 ++ l1) topK, true, false⟩
    else
      ⟨deduplicateAndRank (l0 ++ l1 ++ l2) topK, true, true⟩
  else
    ⟨deduplicateAndRank (l0 ++ l1 ++ l2) topK, true, true⟩

/-! Specification-side characterization of the grouping fold: the winner of a
group, folded left to right, keeping the incumbent on ties. -/

/-- One comparison step: the incumbent survives unless the challenger's
bonus-adjusted score is strictly larger. -/
def bestStep (o : Option SearchResult) (r : SearchResult) : Option SearchResult :=
  match o with
  | none => some r
  | some e => some (if boosted e < boosted r then r else e)

/-- The winning candidate of one node-id group, in encounter order. -/
def groupBest (l : List SearchResult) : Option SearchResult := l.foldl bestStep none

theorem lookupId_updAt (key : Nat) (g : SearchResult → SearchResult)
    (acc : List (Nat × SearchResult)) (i : Nat) :
    lookupId (updAt key g acc) i =
      if key = i then (lookupId acc i).map g else lookupId acc i := by
  induction acc with
  | nil => simp [updAt, lookupId]
  | cons kv rest ih =>
    show lookupId ((if kv.1 = key then (kv.1, g kv.2) else kv) :: updAt key g rest) i = _
    by_cases hk : kv.1 = key
    · rw [if_pos hk]
      by_cases hi : key = i
      · have h1 : kv.1 = i := hk.trans hi
        simp [lookupId, h1, hi]
      · have h1 : ¬ kv.1 = i := fun h => hi (hk.symm.trans h)
        simp [lookupId, h1, hi, ih]
    · rw [if_neg hk]
      by_cases hi : kv.1 = i
      · have h1 : ¬ key = i := fun h => hk (hi.trans h.symm)
        simp [lookupId, hi, h1]
      · simp [lookupId, hi, ih]

theorem lookupId_append_single (acc : List (Nat × SearchResult)) (k : Nat)
    (v : SearchResult) (i : Nat) :
    lookupId (acc ++ [(k, v)]) i =
      match lookupId acc i with
      | some w => some w
      | none => if k = i then some v else none := by
  induction acc with
  | nil => simp [lookupId]
  | cons kv rest ih =>
    by_cases hk : kv.1 = i
    · simp [lookupId, hk]
    · simp [lookupId, hk, ih]

theorem insertBest_lookup (acc : List (Nat × SearchResult)) (r : SearchResult) (i : Nat) :
    lookupId (insertBest acc r) i =
      if r.node.id = i then bestStep (lookupId acc i) r else lookupId acc i := by
  unfold insertBest
  rcases hl : lookupId acc r.node.id with _ | e
  · rw [lookupId_append_single]
    by_cases hi : r.node.id = i
    · rw [← hi, hl]
      simp [hl, hi, bestStep]
    · have : ¬ r.node.id = i := hi
      rcases h2 : lookupId acc i with _ | w
      · simp [this, hi]
      · simp [this, hi]
  · rw [lookupId_updAt]
    by_cases hi : r.node.id = i
    · rw [← hi, hl]
      simp [bestStep, hi]
    · simp [hi]

theorem foldl_insertBest_lookup (l : List SearchResult)
    (acc : List (Nat × SearchResult)) (i : Nat) :
    lookupId (l.foldl insertBest acc) i =
      (l.filter (fun x => x.node.id = i)).foldl bestStep (lookupId acc i) := by
  induction l generalizing acc with
  | nil => simp
  | cons r rest ih =>
    rw [List.foldl_cons, ih, insertBest_lookup]
    by_cases hi : r.node.id = i
    · simp [hi]
    · simp [hi]

/-- The accumulator holds, for every node id, exactly the group winner of the
results processed so far. -/
theorem dedupBest_lookup (results : List SearchResult) (i : Nat) :
    lookupId (dedupBest results) i =
      groupBest (results.filter (fun x => x.node.id = i)) := by
  rw [dedupBest, foldl_insertBest_lookup]
  rfl

theorem insertBest_coherent (acc : List (Nat × SearchResult)) (r : SearchResult)
    (h : ∀ kv ∈ acc, kv.2.node.id = kv.1) :
    ∀ kv ∈ insertBest acc r, kv.2.node.id = kv.1 := by
  intro kv hkv
  unfold insertBest at hkv
  rcases hl : lookupId acc r.node.id with _ | e
  · rw [hl] at hkv
    rcases List.mem_append.mp hkv with hin | hin
    · exact h kv hin
    · simp only [List.mem_singleton] at hin
      simp [hin]
  · rw [hl] at hkv
    obtain ⟨kv0, hkv0, heq⟩ := List.mem_map.mp hkv
    by_cases hk : kv0.1 = r.node.id
    · rw [if_pos hk] at heq
      by_cases hb : boosted kv0.2 < boosted r
      · rw [← heq]; simp [hb, hk]
      · rw [← heq]; simp [hb]; exact h kv0 hkv0
    · rw [if_neg hk] at heq
      rw [← heq]; exact h kv0 hkv0


theorem keys_updAt (key : Nat) (g : SearchResult → SearchResult)
    (acc : List (Nat × SearchResult)) :
    (updAt key g acc).map (·.1) = acc.map (·.1) := by
  induction acc with
  | nil => rfl
  | cons kv rest ih =>
    show ((if kv.1 = key then (kv.1, g kv.2) else kv) :: updAt key g rest).map (·.1) = _
    by_cases hk : kv.1 = key <;> simp [hk, ih]

theorem mem_keys_iff_lookup_isSome (acc : List (Nat × SearchResult)) (i : Nat) :
    i ∈ acc.map (·.1) ↔ (lookupId acc i).isSome := by
  induction acc with
  | nil => simp [lookupId]
  | cons kv rest ih =>
    by_cases hk : kv.1 = i
    · simp [lookupId, hk]
    · simp [lookupId, hk, ih, Ne.symm hk]

theorem insertBest_keys_nodup (acc : List (Nat × SearchResult)) (r : SearchResult)
    (h : (acc.map (·.1)).Nodup) : ((insertBest acc r).map (·.1)).Nodup := by
  unfold insertBest
  rcases hl : lookupId acc r.node.id with _ | e
  · have hk : r.node.id ∉ acc.map (·.1) := by
      rw [mem_keys_iff_lookup_isSome, hl]
      simp
    simp only [List.map_append]
    rw [List.nodup_append]
    refine ⟨h, by simp, ?_⟩
    intro a ha hb
    simp at hb
    exact hk (hb ▸ ha)
  · rw [keys_updAt]
    exact h

theorem lookupId_of_mem_nodup (acc : List (Nat × SearchResult))
    (h : (acc.map (·.1)).Nodup) (kv : Nat × SearchResult) (hm : kv ∈ acc) :
    lookupId acc kv.1 = some kv.2 := by
  induction acc with
  | nil => cases hm
  | cons hd rest ih =>
    rcases List.mem_cons.mp hm with heq | hmem
    · rw [heq]
      simp [lookupId]
    · have hne : hd.1 ≠ kv.1 := by
        intro hcontra
        have : kv.1 ∈ rest.map (·.1) := List.mem_map.mpr ⟨kv, hmem, rfl⟩
        rw [List.map_cons, List.nodup_cons] at h
        exact h.1 (hcontra ▸ this)
      rw [lookupId, if_neg hne]
      exact ih (by rw [List.map_cons, List.nodup_cons] at h; exact h.2) hmem

theorem dedupBest_coherent (results : List SearchResult) :
    ∀ kv ∈ dedupBest results, kv.2.node.id = kv.1 := by
  rw [dedupBest]
  generalize hacc : ([] : List (Nat × SearchResult)) = acc
  have hbase : ∀ kv ∈ acc, kv.2.node.id = kv.1 := by rw [← hacc]; intro kv h; cases h
  clear hacc
  induction results generalizing acc with
  | nil => exact hbase
  | cons r rest ih => exact ih (insertBest acc r) (insertBest_coherent acc r hbase)

theorem dedupBest_keys_nodup (results : List SearchResult) :
    ((dedupBest results).map (·.1)).Nodup := by
  rw [dedupBest]
  generalize hacc : ([] : List (Nat × SearchResult)) = acc
  have hbase : (acc.map (·.1)).Nodup := by rw [← hacc]; exact List.nodup_nil
  clear hacc
  induction results generalizing acc with
  | nil => exact hbase
  | cons r rest ih => exact ih (insertBest acc r) (insertBest_keys_nodup acc r hbase)

theorem foldl_bestStep_isSome (l : List SearchResult) (e : SearchResult) :
    (l.foldl bestStep (some e)).isSome := by
  induction l generalizing e with
  | nil => rfl
  | cons r rest ih =>
    rw [List.foldl_cons]
    show (rest.foldl bestStep (some (if boosted e < boosted r then r else e))).isSome
    exact ih _

theorem groupBest_isSome_of_ne_nil (l : List SearchResult) (h : l ≠ []) :
    (groupBest l).isSome := by
  match l, h with
  | r :: rest, _ =>
    rw [groupBest, List.foldl_cons]
    exact foldl_bestStep_isSome rest r

theorem lookupId_mem (acc : List (Nat × SearchResult)) (i : Nat) (v : SearchResult)
    (h : lookupId acc i = some v) : (i, v) ∈ acc := by
  induction acc with
  | nil => cases h
  | cons kv rest ih =>
    rw [lookupId] at h
    by_cases hk : kv.1 = i
    · rw [if_pos hk] at h
      have hv : kv.2 = v := by injection h
      have heq : (i, v) = kv := by rw [← hk, ← hv]
      rw [heq]
      exact List.mem_cons_self _ _
    · rw [if_neg hk] at h
      exact List.mem_cons_of_mem _ (ih h)

theorem mem_dedupRank_winner (results : List SearchResult) (topK : Nat)
    (r : SearchResult) (hr : r ∈ deduplicateAndRank results topK) :
    groupBest (results.filter (fun x => x.node.id = r.node.id)) = some r := by
  have h1 : r ∈ List.insertionSort scoreGe ((dedupBest results).map (·.2)) :=
    (List.take_sublist _ _).subset hr
  have h2 : r ∈ (dedupBest results).map (·.2) :=
    (List.perm_insertionSort scoreGe _).subset h1
  obtain ⟨kv, hkv, hkv2⟩ := List.mem_map.mp h2
  have hco : kv.2.node.id = kv.1 := dedupBest_coherent results kv hkv
  have hlk : lookupId (dedupBest results) kv.1 = some kv.2 :=
    lookupId_of_mem_nodup _ (dedupBest_keys_nodup results) kv hkv
  rw [← dedupBest_lookup, ← hkv2, hco, hlk, hkv2]

theorem minScoreTop_ge_iff (l0 : List SearchResult) (topK : Nat) (c : ℚ) :
    ((c : WithTop ℚ) ≤ minScoreTop l0 topK) ↔ ∀ r ∈ l0.take topK, c ≤ r.score := by
  rw [minScoreTop]
  induction l0.take topK with
  | nil => simp
  | cons r rest ih =>
    simp only [List.map_cons, List.foldr_cons, le_min_iff, List.mem_cons]
    constructor
    · rintro ⟨h1, h2⟩ x (hx | hx)
      · rw [hx]
        exact WithTop.coe_le_coe.mp h1
      · exact ih.mp h2 x hx
    · intro h
      exact ⟨WithTop.coe_le_coe.mpr (h r (Or.inl rfl)),
        ih.mpr (fun x hx => h x (Or.inr hx))⟩

theorem minScoreTop_lt_iff (l0 : List SearchResult) (topK : Nat) (c : ℚ) :
    (¬ (c : WithTop ℚ) ≤ minScoreTop l0 topK) ↔ ∃ r ∈ l0.take topK, r.score < c := by
  rw [minScoreTop_ge_iff]
  push_neg
  rfl

theorem sorted_dedupRank (results : List SearchResult) (topK : Nat) :
    List.Sorted scoreGe (deduplicateAndRank results topK) := by
  have h : List.Sorted scoreGe
      (List.insertionSort scoreGe ((dedupBest results).map (·.2))) :=
    List.sorted_insertionSort scoreGe _
  exact List.Pairwise.sublist (List.take_sublist _ _) h

theorem length_dedupRank (results : List SearchResult) (topK : Nat) :
    (deduplicateAndRank results topK).length ≤ topK := by
  rw [deduplicateAndRank]
  simp [List.length_take]

theorem group_represented (results : List SearchResult) (x : SearchResult)
    (hx : x ∈ results) : ∃ kv ∈ dedupBest results, kv.1 = x.node.id := by
  have hne : results.filter (fun r => r.node.id = x.node.id) ≠ [] := by
    intro hcontra
    have : x ∈ results.filter (fun r => r.node.id = x.node.id) :=
      List.mem_filter.mpr ⟨hx, by simp⟩
    rw [hcontra] at this
    cases this
  have hsome := groupBest_isSome_of_ne_nil _ hne
  obtain ⟨v, hv⟩ := Option.isSome_iff_exists.mp hsome
  have hlk : lookupId (dedupBest results) x.node.id = some v := by
    rw [dedupBest_lookup]
    exact hv
  exact ⟨(x.node.id, v), lookupId_mem _ _ _ hlk, rfl⟩

/-! Concrete candidates for the dedup example discussed by the spec: one node
seen by L0 with raw score 0.5 and by L1 with raw score 0.9. -/

def nodeX : Node := ⟨1, "X", .function, none, none, none, none, none⟩

def exL0 : SearchResult := ⟨nodeX, 1/2, .l0Literal, none⟩

def exL1 : SearchResult := ⟨nodeX, 9/10, .l1Fts, none⟩

/-- C2: in SearchEngine::search, when L0 yields at least top_k results whose
first top_k all score at least 0.9, the response is built from L0 alone and
neither fts_search (L1) nor vector_search (L2) runs; when the minimum of
those first top_k scores is at least 0.8 but below 0.9, L0 and L1 are merged
and L2 is skipped; otherwise — some of the first top_k scores below 0.8, or
fewer than top_k L0 results — all three tiers run and are merged. -/
theorem c2_search_cascade (l0 l1 l2 : List SearchResult) (topK : Nat) :
    (topK ≤ l0.length → (∀ r ∈ l0.take topK, (9/10 : ℚ) ≤ r.score) →
      searchCascade l0 l1 l2 topK = ⟨deduplicateAndRank l0 topK, false, false⟩)
    ∧ (topK ≤ l0.length → (∀ r ∈ l0.take topK, (8/10 : ℚ) ≤ r.score) →
        (∃ r ∈ l0.take topK, r.score < 9/10) →
      searchCascade l0 l1 l2 topK = ⟨deduplicateAndRank (l0 ++ l1) topK, true, false⟩)
    ∧ ((∃ r ∈ l0.take topK, r.score < 8/10) →
      searchCascade l0 l1 l2 topK = ⟨deduplicateAndRank (l0 ++ l1 ++ l2) topK, true, true⟩)
    ∧ (l0.length < topK →
      searchCascade l0 l1 l2 topK = ⟨deduplicateAndRank (l0 ++ l1 ++ l2) topK, true, true⟩) := by
  refine ⟨?_, ?_, ?_, ?_⟩
  · intro hlen hmin
    rw [searchCascade, if_pos hlen,
      if_pos ((minScoreTop_ge_iff l0 topK (9/10)).mpr hmin)]
  · intro hlen hmin hlt
    rw [searchCascade, if_pos hlen,
      if_neg ((minScoreTop_lt_iff l0 topK (9/10)).mpr hlt),
      if_pos ((minScoreTop_ge_iff l0 topK (8/10)).mpr hmin)]
  · intro hlt
    have hlt9 : ∃ r ∈ l0.take topK, r.score < 9/10 := by
      obtain ⟨r, hr, hsc⟩ := hlt
      exact ⟨r, hr, lt_trans hsc (by norm_num)⟩
    by_cases hlen : topK ≤ l0.length
    · rw [searchCascade, if_pos hlen,
        if_neg ((minScoreTop_lt_iff l0 topK (9/10)).mpr hlt9),
        if_neg ((minScoreTop_lt_iff l0 topK (8/10)).mpr hlt)]
    · rw [searchCascade, if_neg hlen]
  · intro hlen
    rw [searchCascade, if_neg (Nat.not_le.mpr hlen)]

/-- C2 witness: concrete instantiations of the first and fourth branch. -/
theorem c2_search_cascade_witness :
    searchCascade [exL1] [exL0] [] 1 = ⟨deduplicateAndRank [exL1] 1, false, false⟩
    ∧ searchCascade [] [exL0] [exL1] 3 =
        ⟨deduplicateAndRank ([] ++ [exL0] ++ [exL1]) 3, true, true⟩ :=
  ⟨(c2_search_cascade [exL1] [exL0] [] 1).1 (by decide) (by simp [exL1]),
   (c2_search_cascade [] [exL0] [exL1] 3).2.2.2 (by decide)⟩

/-- Evaluation of the dedup example: the L1 candidate with raw 0.9 wins
against the L0 candidate with raw 0.5, because 0.9 + 0.1 exceeds 0.5 + 0.3. -/
theorem dedup_example_value : deduplicateAndRank [exL0, exL1] 10 = [exL1] := by
  norm_num [deduplicateAndRank, dedupBest, insertBest, lookupId, updAt, boosted,
    tierBonus, exL0, exL1, nodeX, List.insertionSort, List.orderedInsert]

/-- C3 counterexample: for one node id seen by L0 with raw score 0.5 and by
L1 with raw score 0.9, deduplicate_and_rank keeps the L1 candidate and
reports 0.9 — the claim's example has the inequality backwards, since
0.5 + 0.3 = 0.8 is not greater than 0.9 + 0.1 = 1.0. -/
theorem c3_dedup_example_counterexample :
    deduplicateAndRank [exL0, exL1] 10 = [exL1]
    ∧ exL1.tier = SearchTier.l1Fts
    ∧ exL1.score = 9/10
    ∧ ¬ ((1/2 + 3/10 : ℚ) > 9/10 + 1/10) :=
  ⟨dedup_example_value, rfl, by norm_num [exL1], by norm_num⟩

/-- C3 (amended): in the merge step, results are grouped by node id; within a
group the kept candidate is the one winning the left-to-right fold on raw
score plus tier bonus (L0 +0.3, L1 +0.1, L2 +0.0), and the kept entry is
that winning candidate itself, so its reported score is the winner's raw
unbonused score; every group of the input is represented before truncation;
the final list is sorted descending by raw score and truncated to top_k.
In particular, for the same node id an L1 candidate with raw score 0.9
beats an L0 candidate with raw score 0.5 (0.9 + 0.1 = 1.0 exceeds
0.5 + 0.3 = 0.8) and the reported score is 0.9. -/
theorem c3_dedup_rank_amended (results : List SearchResult) (topK : Nat) :
    List.Sorted scoreGe (deduplicateAndRank results topK)
    ∧ (deduplicateAndRank results topK).length ≤ topK
    ∧ (∀ r ∈ deduplicateAndRank results topK,
        groupBest (results.filter (fun x => x.node.id = r.node.id)) = some r)
    ∧ (∀ x ∈ results, ∃ kv ∈ dedupBest results, kv.1 = x.node.id)
    ∧ deduplicateAndRank [exL0, exL1] 10 = [exL1]
    ∧ boosted exL0 < boosted exL1 ∧ exL1.score = 9/10 :=
  ⟨sorted_dedupRank results topK,
   length_dedupRank results topK,
   fun r hr => mem_dedupRank_winner results topK r hr,
   fun x hx => group_represented results x hx,
   dedup_example_value,
   by norm_num [boosted, tierBonus, exL0, exL1],
   by norm_num [exL1]⟩

/-- C3 witness: the general winner property applied at the concrete example. -/
theorem c3_dedup_rank_amended_witness :
    groupBest ([exL0, exL1].filter (fun x => x.node.id = exL1.node.id)) = some exL1 :=
  (c3_dedup_rank_amended [exL0, exL1] 10).2.2.1 exL1
    (by rw [dedup_example_value]; exact List.mem_singleton.mpr rfl)

/-! A small character-list string calculus.  Lean's built-in String functions
(splitOn, trim, startsWith, ...) are implemented by position-based recursion
the kernel cannot evaluate, so the embedding re-implements the exact std
semantics of the Rust string operations it needs by structural recursion on
the character list; every definition below evaluates under decide / rfl. -/

/-- Rust str::split_whitespace: maximal runs of non-whitespace characters,
empty pieces skipped. -/
def splitWsAux : List Char → List Char → List String
  | [], cur => if cur.isEmpty then [] else [String.mk cur.reverse]
  | c :: rest, cur =>
    if c.isWhitespace then
      if cur.isEmpty then splitWsAux rest []
      else String.mk cur.reverse :: splitWsAux rest []
    else splitWsAux rest (c :: cur)

def splitWhitespace (s : String) : List String := splitWsAux s.data []

/-- Rust str::split with a non-empty literal pattern, fuelled so that the
recursion is structural (the fuel is the input length, always sufficient). -/
def splitOnAux (sep : List Char) : Nat → List Char → List Char → List String
  | _, [], cur => [String.mk cur.reverse]
  | 0, l, cur => [String.mk (cur.reverse ++ l)]
  | fuel + 1, c :: rest, cur =>
    if sep.isPrefixOf (c :: rest) then
      String.mk cur.reverse :: splitOnAux sep fuel (List.drop (sep.length - 1) rest) []
    else splitOnAux sep fuel rest (c :: cur)

def strSplitOn (s sep : String) : List String :=
  if sep.data.isEmpty then [s] else splitOnAux sep.data s.data.length s.data []

/-- Rust str::trim (whitespace from both ends). -/
def strTrim (s : String) : String :=
  String.mk (((s.data.dropWhile Char.isWhitespace).reverse.dropWhile Char.isWhitespace).reverse)

/-- Rust str::starts_with for a literal pattern. -/
def strStartsWith (s pat : String) : Bool := pat.data.isPrefixOf s.data

/-- Rust str::contains for a single character. -/
def strContainsChar (s : String) (c : Char) : Bool := s.data.contains c

/-- Rust str::contains for a literal pattern. -/
def containsSeq (sub : List Char) : List Char → Bool
  | [] => sub.isEmpty
  | c :: rest => sub.isPrefixOf (c :: rest) || containsSeq sub rest

def strContainsSub (s sub : String) : Bool := containsSeq sub.data s.data

/-- Rust str::to_uppercase, for the ASCII inputs the code compares against. -/
def strUpper (s : String) : String := String.mk (s.data.map Char.toUpper)

/-- Rust str::lines: split on the newline character, with no final empty line
for a trailing newline, and any trailing carriage return stripped. -/
def rustLines (s : String) : List String :=
  let parts := strSplitOn s "\n"
  let parts := if parts.getLast? = some "" then parts.dropLast else parts
  parts.map (fun l => if l.data.getLast? = some '\r' then String.mk l.data.dropLast else l)

/-! L1 full-text search, from src/search/fts.rs. -/

/-- fts.rs is_fts_operator: the four FTS5 keywords, case-insensitively. -/
def isFtsOperator (w : String) : Bool :=
  ["AND", "OR", "NOT", "NEAR"].contains (strUpper w)

/-- The token list of fts_search (src/search/fts.rs lines 13-17): whitespace
words, operators dropped, first 10 kept. -/
def ftsTokens (query : String) : List String :=
  ((splitWhitespace query).filter (fun w => !isFtsOperator w)).take 10

/-- Wrap a word in double quotes, as the format! calls in fts.rs do. -/
def quoteWord (w : String) : String := "\"" ++ w ++ "\""

/-- fts.rs normalize_bm25_score. -/
def normalizeBm25Score (rank : ℚ) : ℚ :=
  let absRank := |rank|
  if absRank < 1/1000 then 1/2
  else min (1 - 1/(1 + absRank)) 1

/-- fts.rs to_search_results: tag every row as tier L1 with normalized score. -/
def toSearchResults (raw : List (Node × ℚ)) : List SearchResult :=
  raw.map (fun nr => ⟨nr.1, normalizeBm25Score nr.2, .l1Fts, none⟩)

def phraseQuery (ws : List String) : String := quoteWord (String.intercalate " " ws)

def andQuery (ws : List String) : String :=
  String.intercalate " AND " (ws.map (fun w => quoteWord w ++ "*"))

def orQuery (ws : List String) : String :=
  String.intercalate " OR " (ws.map quoteWord)

/-- fts.rs fts_search (lines 12-53).  The FTS engine call
graph.fts_search(query, 20) is supplied as the function q from match-query
string to the rows it returns (the LIMIT 20 lives inside q). -/
def fts_search (q : String → List (Node × ℚ)) (query : String) : List SearchResult :=
  let ws := ftsTokens query
  if ws.isEmpty then []
  else if ws.length = 1 then toSearchResults (q (quoteWord (ws.headD "")))
  else
    let s1 := q (phraseQuery ws)
    if 3 ≤ s1.length then toSearchResults s1
    else
      let s2 := q (andQuery ws)
      if 3 ≤ s2.length then toSearchResults s2
      else toSearchResults (q (orQuery ws))

/-- Specification-side strategy selection: of the three match strings tried in
order, the first whose row set has at least 3 rows, defaulting to the last. -/
def pickStrategy (q : String → List (Node × ℚ)) (ws : List String) : String :=
  (([phraseQuery ws, andQuery ws, orQuery ws]).dropWhile
    (fun s => (q s).length < 3)).headD (orQuery ws)

/-- C7: fts_search tokenizes the query on whitespace, drops AND, OR, NOT and
NEAR case-insensitively, keeps the first 10 tokens, and returns the empty
list when no tokens remain; a single token runs as one quoted phrase; for
multiple tokens it runs the first of exact phrase, conjunction of quoted
prefix terms, disjunction of quoted terms that returns at least 3 rows; each
BM25 rank r is normalized to 1 - 1/(1 + abs r), with abs r below 0.001
mapped to 0.5. -/
theorem c7_fts_search (q : String → List (Node × ℚ)) (query : String) :
    (ftsTokens query).length ≤ 10
    ∧ (∀ w ∈ ftsTokens query, isFtsOperator w = false)
    ∧ (ftsTokens query = [] → fts_search q query = [])
    ∧ (∀ w, ftsTokens query = [w] → fts_search q query = toSearchResults (q (quoteWord w)))
    ∧ (2 ≤ (ftsTokens query).length →
        fts_search q query = toSearchResults (q (pickStrategy q (ftsTokens query))))
    ∧ (∀ r : ℚ, |r| < 1/1000 → normalizeBm25Score r = 1/2)
    ∧ (∀ r : ℚ, 1/1000 ≤ |r| → normalizeBm25Score r = 1 - 1/(1 + |r|)) := by
  refine ⟨?_, ?_, ?_, ?_, ?_, ?_, ?_⟩
  · exact List.length_take_le 10 _
  · intro w hw
    have hf := List.mem_filter.mp (List.mem_of_mem_take hw)
    simpa using hf.2
  · intro h
    rw [fts_search, h]
    rfl
  · intro w h
    rw [fts_search, h]
    rfl
  · intro h
    have hne : (ftsTokens query).isEmpty = false := by
      rcases hn : ftsTokens query with _ | _
      · rw [hn] at h; cases h
      · rfl
    have hone : ((ftsTokens query).length = 1) = False := by
      simp only [eq_iff_iff, iff_false]
      omega
    rw [fts_search, hne]
    simp only [Bool.false_eq_true, if_false, hone, if_false]
    by_cases h1 : 3 ≤ (q (phraseQuery (ftsTokens query))).length
    · rw [if_pos h1, pickStrategy, List.dropWhile_cons,
        if_neg (by simp only [decide_eq_true_eq]; omega)]
      rfl
    · rw [if_neg h1]
      by_cases h2 : 3 ≤ (q (andQuery (ftsTokens query))).length
      · rw [if_pos h2, pickStrategy, List.dropWhile_cons,
          if_pos (by simp only [decide_eq_true_eq]; omega),
          List.dropWhile_cons, if_neg (by simp only [decide_eq_true_eq]; omega)]
        rfl
      · rw [if_neg h2, pickStrategy, List.dropWhile_cons,
          if_pos (by simp only [decide_eq_true_eq]; omega),
          List.dropWhile_cons, if_pos (by simp only [decide_eq_true_eq]; omega),
          List.dropWhile_cons]
        by_cases h3 : (q (orQuery (ftsTokens query))).length < 3
        · rw [if_pos (by simp only [decide_eq_true_eq]; omega)]
          rfl
        · rw [if_neg (by simp only [decide_eq_true_eq]; omega)]
          rfl
  · intro r hr
    rw [normalizeBm25Score]
    simp only [hr, if_pos]
  · intro r hr
    rw [normalizeBm25Score]
    have habs : (0:ℚ) ≤ |r| := abs_nonneg r
    have hpos : (0:ℚ) < 1 + |r| := by linarith
    have hinv : (0:ℚ) ≤ 1 / (1 + |r|) := by positivity
    rw [if_neg (by linarith), min_eq_left (by linarith)]

/-- C7 witness: the multi-token branch and the small-rank normalization at
concrete inputs. -/
theorem c7_fts_search_witness :
    fts_search (fun _ => []) "hello world" =
      toSearchResults ((fun _ => ([] : List (Node × ℚ)))
        (pickStrategy (fun _ => []) (ftsTokens "hello world")))
    ∧ normalizeBm25Score 0 = 1/2 :=
  ⟨(c7_fts_search (fun _ => []) "hello world").2.2.2.2.1 (by decide),
   (c7_fts_search (fun _ => []) "hello world").2.2.2.2.2.1 0 (by norm_num)⟩

/-! Temporal facts, from src/temporal.rs. -/

inductive FactType where
  | architecture | apiContract | decision | errorPattern | constraint_ | learning
deriving DecidableEq, Repr

/-- A temporal fact row (single project; ids and timestamps as naturals,
matching the RFC 3339 strings whose ordering the queries use). -/
structure TemporalFact where
  id : Nat
  node_id : Option Nat
  fact_type : FactType
  content : String
  valid_from : Nat
  valid_to : Option Nat
  superseded_by : Option Nat
  source_reference : Option String
deriving DecidableEq, Repr

/-- TemporalStore::invalidate_fact (src/temporal.rs lines 98-107): the UPDATE
statement sets valid_to to now and superseded_by to the bound value — NULL
when no superseding id was given — on every row with the given id. -/
def invalidateFact (facts : List TemporalFact) (now : Nat) (fid : Nat)
    (sup : Option Nat) : List TemporalFact :=
  facts.map (fun f =>
    if f.id = fid then { f with valid_to := some now, superseded_by := sup } else f)

/-- The WHERE clause of get_active_facts: valid_to IS NULL, plus the optional
fact-type filter. -/
def activePred (ft : Option FactType) (f : TemporalFact) : Bool :=
  f.valid_to = none && ft.all (fun t => f.fact_type = t)

/-- Descending valid_from order of the ORDER BY valid_from DESC clause. -/
def validFromGe (a b : TemporalFact) : Prop := b.valid_from ≤ a.valid_from

instance : DecidableRel validFromGe :=
  fun a b => inferInstanceAs (Decidable (b.valid_from ≤ a.valid_from))

instance : IsTotal TemporalFact validFromGe := ⟨fun a b => le_total b.valid_from a.valid_from⟩

instance : IsTrans TemporalFact validFromGe := ⟨fun _ _ _ h1 h2 => le_trans h2 h1⟩

/-- TemporalStore::get_active_facts (src/temporal.rs lines 109-138): the rows
passing the WHERE clause, ordered by valid_from descending (the SQL engine
fixes no order among equal timestamps; the sort here is one such order, and
no claim depends on the tie order). -/
def getActiveFacts (facts : List TemporalFact) (ft : Option FactType) :
    List TemporalFact :=
  List.insertionSort validFromGe (facts.filter (activePred ft))

/-- A stored fact that has already been superseded by fact 2. -/
def factA : TemporalFact := ⟨1, none, .decision, "use X", 0, some 3, some 2, none⟩

/-- C9 counterexample: invalidate_fact with no superseding id overwrites the
supersedes pointer with NULL instead of leaving it — fact 1 pointed at fact 2,
and after invalidate_fact(1, None) the pointer is gone. -/
theorem c9_invalidate_counterexample :
    factA.superseded_by = some 2
    ∧ (invalidateFact [factA] 5 1 none).map (fun f => f.superseded_by) = [none] := by
  constructor
  · rfl
  · rfl

/-- C9 (amended): for every stored fact with the given id, invalidate_fact
sets valid_to to the current time and sets the supersedes pointer to the
given value, clearing it when none is given; afterwards no fact with that id
is active, and get_active_facts returns exactly the facts with valid_to
null, optionally filtered by type, ordered by valid_from descending. -/
theorem c9_invalidate_active_amended (facts : List TemporalFact) (now fid : Nat)
    (sup : Option Nat) (ft : Option FactType) :
    (∀ f ∈ facts, f.id = fid →
       { f with valid_to := some now, superseded_by := sup } ∈
         invalidateFact facts now fid sup)
    ∧ (∀ g ∈ invalidateFact facts now fid sup, g.id = fid →
         g.valid_to = some now ∧ g.superseded_by = sup)
    ∧ (∀ g ∈ getActiveFacts (invalidateFact facts now fid sup) ft, g.id ≠ fid)
    ∧ (getActiveFacts facts ft).Perm (facts.filter (activePred ft))
    ∧ List.Sorted validFromGe (getActiveFacts facts ft)
    ∧ (∀ g, g ∈ getActiveFacts facts ft ↔
         g ∈ facts ∧ g.valid_to = none ∧ (∀ t, ft = some t → g.fact_type = t)) := by
  have hmem2 : ∀ g ∈ invalidateFact facts now fid sup, g.id = fid →
      g.valid_to = some now ∧ g.superseded_by = sup := by
    intro g hg hid
    obtain ⟨f, hf, heq⟩ := List.mem_map.mp hg
    by_cases hfid : f.id = fid
    · rw [if_pos hfid] at heq
      rw [← heq]
      exact ⟨rfl, rfl⟩
    · rw [if_neg hfid] at heq
      rw [← heq] at hid
      exact absurd hid hfid
  refine ⟨?_, hmem2, ?_, ?_, ?_, ?_⟩
  · intro f hf hid
    exact List.mem_map.mpr ⟨f, hf, by rw [if_pos hid]⟩
  · intro g hg hid
    have hg2 : g ∈ (invalidateFact facts now fid sup).filter (activePred ft) :=
      (List.perm_insertionSort validFromGe _).subset hg
    have hg3 := List.mem_filter.mp hg2
    have hvt : g.valid_to = some now := (hmem2 g hg3.1 hid).1
    have : g.valid_to = none := by
      have := hg3.2
      rw [activePred, Bool.and_eq_true] at this
      simpa using this.1
    rw [hvt] at this
    cases this
  · exact List.perm_insertionSort validFromGe _
  · exact List.sorted_insertionSort validFromGe _
  · intro g
    constructor
    · intro hg
      have hg2 : g ∈ facts.filter (activePred ft) :=
        (List.perm_insertionSort validFromGe _).subset hg
      have hg3 := List.mem_filter.mp hg2
      refine ⟨hg3.1, ?_, ?_⟩
      · have := hg3.2
        rw [activePred, Bool.and_eq_true] at this
        simpa using this.1
      · intro t hft
        have := hg3.2
        rw [activePred, Bool.and_eq_true, hft] at this
        simpa using this.2
    · rintro ⟨hmem, hvt, htype⟩
      have : g ∈ facts.filter (activePred ft) := by
        refine List.mem_filter.mpr ⟨hmem, ?_⟩
        rw [activePred, Bool.and_eq_true]
        constructor
        · simp [hvt]
        · cases ft with
          | none => rfl
          | some t => simpa using htype t rfl
      exact ((List.perm_insertionSort validFromGe _).symm).subset this

/-- C9 witness: invalidating the concrete superseded fact with a new pointer. -/
theorem c9_invalidate_active_amended_witness :
    { factA with valid_to := some 5, superseded_by := some 7 } ∈
      invalidateFact [factA] 5 1 (some 7) :=
  (c9_invalidate_active_amended [factA] 5 1 (some 7) none).1 factA
    (List.mem_singleton.mpr rfl) rfl

/-! The chunker, from src/ingestion/chunker.rs.  File paths are embedded as
plain strings; pathExt and pathFileName mirror std::path::Path::extension
and file_name for the forward-slash paths the crawler produces. -/

structure Chunk where
  name : String
  node_type : NodeType
  content : String
  start_line : Nat
  end_line : Nat
  summary : String
deriving DecidableEq, Repr

def pathFileName (p : String) : String := (strSplitOn p "/").getLastD ""

/-- Rust Path::extension: the part after the last dot of the file name,
absent for names with no dot and for hidden files like ".rs" whose only dot
leads the name. -/
def pathExt (p : String) : String :=
  let base := pathFileName p
  let parts := strSplitOn base "."
  if 3 ≤ parts.length ∨ (parts.length = 2 ∧ parts.headD "" ≠ "") then parts.getLastD ""
  else ""

/-- Rust str::strip_prefix as an Option. -/
def stripPat (s pat : String) : Option String :=
  if pat.data.isPrefixOf s.data then some (String.mk (s.data.drop pat.data.length)) else none

/-- Net brace depth change contributed by one line. -/
def braceDelta (l : String) : Int :=
  (l.data.count '{' : Int) - (l.data.count '}' : Int)

def hasOpenBrace (l : String) : Bool := strContainsChar l '{'

/-- The scan of find_block_end (chunker.rs lines 197-216): per character the
code bumps the depth on every brace and flags the first opening brace, and
only after a whole line checks found_open && depth <= 0, so aggregating the
braces line by line is exact. -/
def findBlockEndAux : List String → Nat → Int → Bool → Option Nat
  | [], _, _, _ => none
  | l :: rest, i, depth, found =>
    let depth2 := depth + braceDelta l
    let found2 := found || hasOpenBrace l
    if found2 = true ∧ depth2 ≤ 0 then some i
    else findBlockEndAux rest (i + 1) depth2 found2

def findBlockEnd (lines : List String) (start : Nat) : Nat :=
  match findBlockEndAux (lines.drop start) start 0 false with
  | some i => i
  | none => min (start + 1) (lines.length - 1)

def extract_fn_name (line : String) : Option String :=
  match (strSplitOn line "fn ")[1]? with
  | none => none
  | some afterFn =>
    let name := strTrim ((strSplitOn ((strSplitOn afterFn "(").headD "") "<").headD "")
    if name = "" then none else some name

def extract_after_keyword (line kw : String) : Option String :=
  match (strSplitOn line (kw ++ " "))[1]? with
  | none => none
  | some after =>
    let s1 := (strSplitOn after "\x7b").headD ""
    let s2 := (strSplitOn s1 "<").headD ""
    let name := strTrim ((strSplitOn s2 "(").headD "")
    if name = "" then none else some name

def extract_impl_name (line : String) : Option String :=
  match stripPat line "impl " with
  | none => none
  | some afterImpl =>
    let s1 := (strSplitOn afterImpl "\x7b").headD ""
    let s2 := (strSplitOn s1 "for ").getLastD ""
    let name := strTrim ((strSplitOn s2 "<").headD "")
    if name = "" then none else some name

/-- chunker.rs build_summary: clean_line.len() counts UTF-8 bytes, so the
80 threshold is a byte bound, not a character bound. -/
def build_summary (name : String) (node_type : NodeType) (first_line : String) : String :=
  let typeStr := node_type.asStr
  let cleanLine := strTrim first_line
  if 80 < cleanLine.utf8ByteSize then typeStr ++ ": " ++ name
  else typeStr ++ ": " ++ cleanLine

/-- The name-and-type dispatch at the head of try_parse_rust_item
(chunker.rs lines 43-59). -/
def parseRustHeader (line : String) : Option (String × NodeType) :=
  if strStartsWith line "pub fn " || strStartsWith line "fn " ||
     strStartsWith line "pub async fn " || strStartsWith line "async fn " then
    (extract_fn_name line).map (fun n => (n, .function))
  else if strStartsWith line "pub struct " || strStartsWith line "struct " then
    (extract_after_keyword line "struct").map (fun n => (n, .struct_))
  else if strStartsWith line "pub enum " || strStartsWith line "enum " then
    (extract_after_keyword line "enum").map (fun n => (n, .enum_))
  else if strStartsWith line "impl " then
    (extract_impl_name line).map (fun n => (n, .impl_))
  else if strStartsWith line "pub trait " || strStartsWith line "trait " then
    (extract_after_keyword line "trait").map (fun n => (n, .trait_))
  else none

def try_parse_rust_item (line : String) (lines : List String) (start : Nat) : Option Chunk :=
  match parseRustHeader line with
  | none => none
  | some nt =>
    let e := findBlockEnd lines start
    some ⟨nt.1, nt.2, String.intercalate "\n" ((lines.drop start).take (e + 1 - start)),
      start + 1, e + 1, build_summary nt.1 nt.2 (lines.getD start "")⟩

def chunk_rust (content : String) : List Chunk :=
  let lines := rustLines content
  (List.range lines.length).filterMap
    (fun i => try_parse_rust_item (strTrim (lines.getD i "")) lines i)

/-- Rust str::trim_start_matches for the hash character. -/
def dropLeadingHashes (l : String) : String := String.mk (l.data.dropWhile (· = '#'))

def chunkMarkdownAux (lines : List String) :
    List (Nat × String) → Option (Nat × String) → List Chunk
  | [], sectionStart =>
    match sectionStart with
    | none => []
    | some st =>
      [⟨st.2, .document, String.intercalate "\n" (lines.drop st.1),
        st.1 + 1, lines.length, st.2⟩]
  | (i, line) :: rest, sectionStart =>
    if strStartsWith line "## " || strStartsWith line "# " then
      let newStart := some (i, strTrim (dropLeadingHashes line))
      match sectionStart with
      | none => chunkMarkdownAux lines rest newStart
      | some st =>
        ⟨st.2, .document, String.intercalate "\n" ((lines.drop st.1).take (i - st.1)),
          st.1 + 1, i, st.2⟩ :: chunkMarkdownAux lines rest newStart
    else chunkMarkdownAux lines rest sectionStart

def chunk_markdown (content : String) : List Chunk :=
  let lines := rustLines content
  chunkMarkdownAux lines lines.enum none

def is_ts_function_start (line : String) : Bool :=
  (strStartsWith line "export function " || strStartsWith line "function " ||
   strStartsWith line "export const " || strStartsWith line "const ")
  && (strContainsSub line "=>" || strContainsChar line '(')

def is_ts_component_start (line : String) : Bool :=
  strStartsWith line "export default function " || strStartsWith line "export default class "

def extractTsNameGo (line : String) : List String → Option String
  | [] => none
  | kw :: rest =>
    match (strSplitOn line kw)[1]? with
    | none => extractTsNameGo line rest
    | some after =>
      let s1 := (strSplitOn after "(").headD ""
      let s2 := (strSplitOn s1 "=").headD ""
      let s3 := (strSplitOn s2 ":").headD ""
      let name := strTrim ((strSplitOn s3 "<").headD "")
      if name = "" then extractTsNameGo line rest else some name

def extract_ts_name (line : String) : Option String :=
  extractTsNameGo line ["function ", "const ", "class "]

def chunk_typescript (content : String) : List Chunk :=
  let lines := rustLines content
  (List.range lines.length).filterMap (fun i =>
    let trimmed := strTrim (lines.getD i "")
    if is_ts_function_start trimmed || is_ts_component_start trimmed then
      let name := (extract_ts_name trimmed).getD ("anonymous_" ++ toString i)
      let e := findBlockEnd lines i
      some (⟨name, .function, String.intercalate "\n" ((lines.drop i).take (e + 1 - i)),
        i + 1, e + 1, "TypeScript function: " ++ name⟩ : Chunk)
    else none)

def chunk_whole_file (path : String) (content : String) : List Chunk :=
  let base := pathFileName path
  let name := if base = "" then "unknown" else base
  [⟨name, .file, content, 1, (rustLines content).length, "File: " ++ name⟩]

/-- chunker.rs chunk_file: dispatch on the file extension. -/
def chunk_file (path : String) (content : String) : List Chunk :=
  let ext := pathExt path
  if ext = "rs" then chunk_rust content
  else if ext = "md" then chunk_markdown content
  else if ext = "tsx" ∨ ext = "ts" ∨ ext = "jsx" ∨ ext = "js" then chunk_typescript content
  else chunk_whole_file path content

theorem chunk_rust_summary (content : String) (c : Chunk) (hc : c ∈ chunk_rust content) :
    ∃ i, i < (rustLines content).length ∧ c.start_line = i + 1 ∧
      c.summary = build_summary c.name c.node_type ((rustLines content).getD i "") := by
  obtain ⟨i, hi, heq⟩ := List.mem_filterMap.mp hc
  have hrange := List.mem_range.mp hi
  rcases hp : parseRustHeader (strTrim ((rustLines content).getD i "")) with _ | nt
  · rw [try_parse_rust_item, hp] at heq
    cases heq
  · rw [try_parse_rust_item, hp] at heq
    cases heq
    exact ⟨i, hrange, rfl, rfl⟩

theorem chunkMarkdownAux_summary (lines : List String) (enumL : List (Nat × String))
    (st : Option (Nat × String)) (c : Chunk) (hc : c ∈ chunkMarkdownAux lines enumL st) :
    c.summary = c.name ∧ c.node_type = .document := by
  induction enumL generalizing st with
  | nil =>
    rcases st with _ | s
    · cases hc
    · rw [chunkMarkdownAux] at hc
      rcases List.mem_singleton.mp hc with h
      rw [h]
      exact ⟨rfl, rfl⟩
  | cons p rest ih =>
    obtain ⟨i, line⟩ := p
    rw [chunkMarkdownAux] at hc
    by_cases hh : (strStartsWith line "## " || strStartsWith line "# ") = true
    · rw [if_pos hh] at hc
      rcases st with _ | s
      · exact ih _ hc
      · rcases List.mem_cons.mp hc with h | h
        · rw [h]
          exact ⟨rfl, rfl⟩
        · exact ih _ h
    · rw [if_neg hh] at hc
      exact ih _ hc

theorem chunk_typescript_summary (content : String) (c : Chunk)
    (hc : c ∈ chunk_typescript content) :
    c.summary = "TypeScript function: " ++ c.name := by
  obtain ⟨i, _, heq⟩ := List.mem_filterMap.mp hc
  by_cases hts : (is_ts_function_start (strTrim ((rustLines content).getD i "")) ||
      is_ts_component_start (strTrim ((rustLines content).getD i ""))) = true
  · rw [if_pos hts] at heq
    cases heq
    rfl
  · rw [if_neg hts] at heq
    cases heq

theorem chunk_whole_file_summary (path content : String) (c : Chunk)
    (hc : c ∈ chunk_whole_file path content) :
    c.summary = "File: " ++ c.name ∧ c.node_type = .file := by
  rcases List.mem_singleton.mp hc with h
  rw [h]
  exact ⟨rfl, rfl⟩

/-- C10 counterexample: a markdown chunk's summary is the heading text, not
the claimed type-prefixed first line — chunking "# Title\nhi" as a.md gives
one chunk with summary "Title", while the claim requires
"document: # Title" (the first line, 7 bytes, is within 80). -/
theorem c10_summary_counterexample :
    (chunk_file "a.md" "# Title\nhi").map (fun c => c.summary) = ["Title"]
    ∧ (chunk_file "a.md" "# Title\nhi").map
        (fun c => c.node_type.asStr ++ ": " ++ strTrim "# Title") = ["document: # Title"]
    ∧ "Title" ≠ "document: # Title" := by
  refine ⟨rfl, rfl, by decide⟩

/-- C10 (amended): the type-prefixed summary rule holds for the chunks of the
Rust code chunker, with the 80 test applied to the UTF-8 byte length of the
trimmed first line of the block: such a chunk starting at 1-based line i+1
has summary "<type>: <first-line-trimmed>" when the trimmed line is at most
80 bytes and "<type>: <name>" otherwise.  Chunks of the other dispatch
targets use different summary forms: markdown chunks use the heading text
(which is also their name), TypeScript chunks use
"TypeScript function: <name>", and unknown-extension whole-file chunks use
"File: <name>". -/
theorem c10_chunk_summary_amended (path content : String) (c : Chunk)
    (hc : c ∈ chunk_file path content) :
    (pathExt path = "rs" →
      ∃ i, i < (rustLines content).length ∧ c.start_line = i + 1 ∧
        c.summary = (if 80 < (strTrim ((rustLines content).getD i "")).utf8ByteSize
          then c.node_type.asStr ++ ": " ++ c.name
          else c.node_type.asStr ++ ": " ++ strTrim ((rustLines content).getD i "")))
    ∧ (pathExt path = "md" → c.summary = c.name ∧ c.node_type = .document)
    ∧ ((pathExt path = "tsx" ∨ pathExt path = "ts" ∨ pathExt path = "jsx" ∨
        pathExt path = "js") → c.summary = "TypeScript function: " ++ c.name)
    ∧ ((pathExt path ≠ "rs" ∧ pathExt path ≠ "md" ∧ pathExt path ≠ "tsx" ∧
        pathExt path ≠ "ts" ∧ pathExt path ≠ "jsx" ∧ pathExt path ≠ "js") →
        c.summary = "File: " ++ c.name ∧ c.node_type = .file) := by
  refine ⟨?_, ?_, ?_, ?_⟩
  · intro hext
    rw [chunk_file, hext, if_pos rfl] at hc
    obtain ⟨i, hlen, hstart, hsum⟩ := chunk_rust_summary content c hc
    exact ⟨i, hlen, hstart, by rw [hsum, build_summary]⟩
  · intro hext
    rw [chunk_file, hext, if_neg (by decide), if_pos rfl] at hc
    exact chunkMarkdownAux_summary _ _ _ c hc
  · intro hext
    have hts : (pathExt path = "tsx" ∨ pathExt path = "ts" ∨ pathExt path = "jsx" ∨
        pathExt path = "js") := hext
    have hne1 : pathExt path ≠ "rs" := by rcases hts with h | h | h | h <;> rw [h] <;> decide
    have hne2 : pathExt path ≠ "md" := by rcases hts with h | h | h | h <;> rw [h] <;> decide
    rw [chunk_file, if_neg hne1, if_neg hne2, if_pos hts] at hc
    exact chunk_typescript_summary content c hc
  · rintro ⟨h1, h2, h3, h4, h5, h6⟩
    rw [chunk_file, if_neg h1, if_neg h2, if_neg (by tauto)] at hc
    exact chunk_whole_file_summary path content c hc

/-- C10 witness: the amended rule at the concrete markdown input. -/
theorem c10_chunk_summary_amended_witness :
    (⟨"Title", .document, "# Title\nhi", 1, 2, "Title"⟩ : Chunk).summary =
        (⟨"Title", .document, "# Title\nhi", 1, 2, "Title"⟩ : Chunk).name
    ∧ (⟨"Title", .document, "# Title\nhi", 1, 2, "Title"⟩ : Chunk).node_type = .document :=
  (c10_chunk_summary_amended "a.md" "# Title\nhi"
    ⟨"Title", .document, "# Title\nhi", 1, 2, "Title"⟩ (by decide)).2.1 (by decide)

/-! The crawler, from src/ingestion/crawler.rs.  The file system is embedded
as a tree whose errDir nodes are directories for which read_dir fails (for
example because of permissions); mutually inductive tree and forest types
keep every recursion structural. -/

mutual
inductive FsTree where
  | file (name : String)
  | dir (name : String) (entries : FsForest)
  | errDir (name : String)
deriving Repr

inductive FsForest where
  | nil
  | cons (t : FsTree) (rest : FsForest)
deriving Repr
end

def treeName : FsTree → String
  | .file n => n
  | .dir n _ => n
  | .errDir n => n

def toForest : List FsTree → FsForest
  | [] => .nil
  | t :: rest => .cons t (toForest rest)

def ignoredDirs : List String :=
  ["target", "node_modules", ".git", ".venv", ".mypy_cache", ".pytest_cache",
   ".ruff_cache", "dist", ".next", ".vite"]

def supportedExtensions : List String :=
  ["rs", "tsx", "ts", "jsx", "js", "md", "toml", "json", "css"]

/-- crawler.rs is_supported_file. -/
def isSupportedPath (p : String) : Bool := supportedExtensions.contains (pathExt p)

mutual
/-- crawler.rs crawl_recursive: a non-directory yields nothing; a directory
with an ignored basename is pruned; otherwise the entries are walked, and a
read_dir failure propagates as an error through the question-mark operator. -/
def crawlRec : FsTree → String → Except Unit (List String)
  | .file _, _ => .ok []
  | .errDir n, _ => if ignoredDirs.contains n then .ok [] else .error ()
  | .dir n entries, cur =>
    if ignoredDirs.contains n then .ok []
    else crawlEntries entries cur

/-- The entry loop of crawl_recursive: directories recurse (propagating
errors), supported files are pushed, other files are skipped. -/
def crawlEntries : FsForest → String → Except Unit (List String)
  | .nil, _ => .ok []
  | .cons (.file fname) rest, cur =>
    (crawlEntries rest cur).map (fun there =>
      (if isSupportedPath (cur ++ "/" ++ fname) then [cur ++ "/" ++ fname] else []) ++ there)
  | .cons (.dir n sub) rest, cur => do
    let here ← crawlRec (.dir n sub) (cur ++ "/" ++ n)
    let there ← crawlEntries rest cur
    pure (here ++ there)
  | .cons (.errDir n) rest, cur => do
    let here ← crawlRec (.errDir n) (cur ++ "/" ++ n)
    let there ← crawlEntries rest cur
    pure (here ++ there)
end

/-- crawler.rs crawl_directory: recursive walk, then sort (PathBuf ordering
coincides with string ordering on the single-separator paths the claims
use). -/
def crawl_directory (rootPath : String) (t : FsTree) : Except Unit (List String) :=
  (crawlRec t rootPath).map (List.insertionSort (· ≤ ·))

mutual
/-- Whether the walk reaches a directory whose read fails (not pruned by the
ignore set): exactly the condition under which crawl_recursive errors. -/
def hasErr : FsTree → Bool
  | .file _ => false
  | .errDir n => !ignoredDirs.contains n
  | .dir n entries => if ignoredDirs.contains n then false else hasErrForest entries

def hasErrForest : FsForest → Bool
  | .nil => false
  | .cons t rest => hasErr t || hasErrForest rest
end

mutual
/-- The supported files the walk reaches, in walk order. -/
def collectFiles : FsTree → String → List String
  | .file _, _ => []
  | .errDir _, _ => []
  | .dir n entries, cur =>
    if ignoredDirs.contains n then [] else collectForest entries cur

def collectForest : FsForest → String → List String
  | .nil, _ => []
  | .cons (.file fname) rest, cur =>
    (if isSupportedPath (cur ++ "/" ++ fname) then [cur ++ "/" ++ fname] else []) ++
      collectForest rest cur
  | .cons (.dir n sub) rest, cur =>
    collectFiles (.dir n sub) (cur ++ "/" ++ n) ++ collectForest rest cur
  | .cons (.errDir n) rest, cur =>
    collectFiles (.errDir n) (cur ++ "/" ++ n) ++ collectForest rest cur
end

theorem crawlRec_eq_spec (t : FsTree) :
    ∀ cur, crawlRec t cur =
      if hasErr t then Except.error () else Except.ok (collectFiles t cur) := by
  refine @FsTree.rec
    (fun t => ∀ cur, crawlRec t cur =
      if hasErr t then Except.error () else Except.ok (collectFiles t cur))
    (fun f => ∀ cur, crawlEntries f cur =
      if hasErrForest f then Except.error () else Except.ok (collectForest f cur))
    ?_ ?_ ?_ ?_ ?_ t
  · intro n cur
    simp [crawlRec, hasErr, collectFiles]
  · intro n entries ih cur
    by_cases hn : n ∈ ignoredDirs
    · simp [crawlRec, hasErr, collectFiles, hn]
    · simp [crawlRec, hasErr, collectFiles, hn, ih]
  · intro n cur
    by_cases hn : n ∈ ignoredDirs
    · simp [crawlRec, hasErr, collectFiles, hn]
    · simp [crawlRec, hasErr, collectFiles, hn]
  · intro cur
    simp [crawlEntries, hasErrForest, collectForest]
  · intro t rest iht ihr cur
    cases t with
    | file fname =>
      rw [crawlEntries, ihr cur]
      by_cases hf : hasErrForest rest = true
      · simp [hasErrForest, hasErr, hf, Except.map]
      · simp only [Bool.not_eq_true] at hf
        simp [hasErrForest, hasErr, hf, Except.map, collectForest]
    | dir n sub =>
      rw [crawlEntries, iht, ihr]
      by_cases ht : hasErr (FsTree.dir n sub) = true
      · have hrw : hasErrForest (FsForest.cons (FsTree.dir n sub) rest) = true := by
          rw [hasErrForest, ht, Bool.true_or]
        rw [hrw, if_pos ht]
        rfl
      · simp only [Bool.not_eq_true] at ht
        by_cases hf : hasErrForest rest = true
        · have hrw : hasErrForest (FsForest.cons (FsTree.dir n sub) rest) = true := by
            rw [hasErrForest, ht, hf, Bool.false_or]
          rw [hrw, if_neg (by rw [ht]; exact Bool.false_ne_true), if_pos hf]
          rfl
        · simp only [Bool.not_eq_true] at hf
          have hrw : hasErrForest (FsForest.cons (FsTree.dir n sub) rest) = false := by
            rw [hasErrForest, ht, hf, Bool.false_or]
          rw [hrw, if_neg (by rw [ht]; exact Bool.false_ne_true),
            if_neg (by rw [hf]; exact Bool.false_ne_true), if_neg Bool.false_ne_true]
          rfl
    | errDir n =>
      rw [crawlEntries, iht, ihr]
      by_cases ht : hasErr (FsTree.errDir n) = true
      · have hrw : hasErrForest (FsForest.cons (FsTree.errDir n) rest) = true := by
          rw [hasErrForest, ht, Bool.true_or]
        rw [hrw, if_pos ht]
        rfl
      · simp only [Bool.not_eq_true] at ht
        by_cases hf : hasErrForest rest = true
        · have hrw : hasErrForest (FsForest.cons (FsTree.errDir n) rest) = true := by
            rw [hasErrForest, ht, hf, Bool.false_or]
          rw [hrw, if_neg (by rw [ht]; exact Bool.false_ne_true), if_pos hf]
          rfl
        · simp only [Bool.not_eq_true] at hf
          have hrw : hasErrForest (FsForest.cons (FsTree.errDir n) rest) = false := by
            rw [hasErrForest, ht, hf, Bool.false_or]
          rw [hrw, if_neg (by rw [ht]; exact Bool.false_ne_true),
            if_neg (by rw [hf]; exact Bool.false_ne_true), if_neg Bool.false_ne_true]
          rfl

def crawlTreeEx : FsTree := .dir "root" (toForest [.file "a.rs", .errDir "sub"])

/-- C6 counterexample: a crawl over a root holding a supported file a.rs and
one unreadable subdirectory returns an error — the whole crawl fails —
rather than the sorted file list of the rest of the tree, which would have
been the single path r/a.rs. -/
theorem c6_crawl_counterexample :
    crawl_directory "r" crawlTreeEx = .error ()
    ∧ (∀ l, crawl_directory "r" crawlTreeEx ≠ .ok l)
    ∧ collectFiles crawlTreeEx "r" = ["r/a.rs"] := by
  refine ⟨rfl, ?_, rfl⟩
  intro l h
  rw [show crawl_directory "r" crawlTreeEx = Except.error () from rfl] at h
  cases h

/-- C6 (amended): crawl(root) does not skip read errors on subdirectories:
whenever the walk reaches a directory whose read fails (other than one
pruned by the ignore set), the whole crawl returns an error instead of
pruning that subtree; only when no reachable directory read fails does it
return the sorted list of supported files of the tree. -/
theorem c6_crawl_error_amended (rootPath : String) (t : FsTree) :
    (hasErr t = true → crawl_directory rootPath t = .error ())
    ∧ (hasErr t = false →
        crawl_directory rootPath t =
          .ok (List.insertionSort (· ≤ ·) (collectFiles t rootPath)))
    ∧ (∀ l, crawl_directory rootPath t = .ok l →
        List.Sorted (· ≤ ·) l ∧ l.Perm (collectFiles t rootPath)) := by
  refine ⟨?_, ?_, ?_⟩
  · intro h
    rw [crawl_directory, crawlRec_eq_spec t rootPath, if_pos h]
    rfl
  · intro h
    rw [crawl_directory, crawlRec_eq_spec t rootPath,
      if_neg (by rw [h]; exact Bool.false_ne_true)]
    rfl
  · intro l hl
    rw [crawl_directory, crawlRec_eq_spec t rootPath] at hl
    by_cases h : hasErr t = true
    · rw [if_pos h] at hl
      cases hl
    · rw [if_neg h] at hl
      have : List.insertionSort (· ≤ ·) (collectFiles t rootPath) = l := by
        injection hl
      rw [← this]
      exact ⟨List.sorted_insertionSort _ _,
        List.perm_insertionSort _ _⟩

/-- C6 witness: the success case at a concrete error-free tree. -/
theorem c6_crawl_error_amended_witness :
    crawl_directory "r" (.dir "root" (toForest [.file "b.rs", .file "a.rs"])) =
      .ok (List.insertionSort (· ≤ ·)
        (collectFiles (.dir "root" (toForest [.file "b.rs", .file "a.rs"])) "r")) :=
  (c6_crawl_error_amended "r" (.dir "root" (toForest [.file "b.rs", .file "a.rs"]))).2.1 rfl

/-! The store and the ingestion pipeline, from src/graph.rs, src/graph_queries.rs,
src/ingestion/hash_tracker.rs and src/ingestion/mod.rs.  The parallel map of
ingest_directory is embedded as a left-to-right fold: all database writes are
serialized through one mutex, and the writes of distinct files touch
disjoint rows (fresh node ids, per-file FTS rows and chunk-hash keys), so
the claims below are insensitive to the interleaving the worker pool picks. -/

inductive FileData where
  | utf8 (s : String)
  | invalid
deriving DecidableEq, Repr

/-- The file system under the crawled root: contents by path, invalid marking
a file std::fs::read_to_string fails on (non-UTF-8 bytes or an I/O error). -/
abbrev FS := List (String × FileData)

def readToString (fs : FS) (p : String) : Option String :=
  match fs with
  | [] => none
  | e :: rest =>
    if e.1 = p then
      match e.2 with
      | .utf8 s => some s
      | .invalid => none
    else readToString rest p

structure Store where
  nodes : List Node
  edges : List Edge
  fts : List (Nat × String)
  fileHashes : List (String × String)
  nextId : Nat
deriving DecidableEq, Repr

def emptyStore : Store := ⟨[], [], [], [], 0⟩

/-- First-match lookup in the file_hashes table (file_path is its primary
key, so at most one row per key exists). -/
def lookupStr : List (String × String) → String → Option String
  | [], _ => none
  | kv :: rest, k => if kv.1 = k then some kv.2 else lookupStr rest k

/-- KnowledgeGraph::add_node: INSERT OR REPLACE by the primary key id. -/
def addNode (st : Store) (n : Node) : Store :=
  if st.nodes.any (fun m => m.id = n.id) then
    { st with nodes := st.nodes.map (fun m => if m.id = n.id then n else m) }
  else { st with nodes := st.nodes ++ [n] }

/-- KnowledgeGraph::index_fts: delete the node's FTS row, then insert. -/
def indexFts (st : Store) (nid : Nat) (content : String) : Store :=
  { st with fts := st.fts.filter (fun r => r.1 ≠ nid) ++ [(nid, content)] }

/-- KnowledgeGraph::add_edge: INSERT OR IGNORE under the primary key and the
(source, target, edge_type) uniqueness constraint. -/
def addEdge (st : Store) (e : Edge) : Store :=
  if st.edges.any (fun e2 => e2.id = e.id ∨
      (e2.source_id = e.source_id ∧ e2.target_id = e.target_id ∧
       e2.edge_type = e.edge_type)) then st
  else { st with edges := st.edges ++ [e] }

/-- INSERT OR REPLACE INTO file_hashes. -/
def upsertHash (st : Store) (key h : String) : Store :=
  { st with fileHashes := st.fileHashes.filter (fun r => r.1 ≠ key) ++ [(key, h)] }

/-- HashTracker::is_unchanged: absent row means changed without touching the
disk; otherwise the file is re-read (an unreadable file propagates the error,
modelled as none) and its hash compared against the stored one. -/
def isUnchanged (hash : String → String) (fs : FS) (st : Store) (p : String) :
    Option Bool :=
  match lookupStr st.fileHashes p with
  | none => some false
  | some stored => (readToString fs p).map (fun c => stored == hash c)

/-- HashTracker::update_hash: re-reads the file from disk and stores its hash. -/
def updateHashFromDisk (hash : String → String) (fs : FS) (st : Store) (p : String) :
    Option Store :=
  (readToString fs p).map (fun c => upsertHash st p (hash c))

/-- HashTracker::is_chunk_unchanged: a pure table comparison, no disk read. -/
def isChunkUnchanged (st : Store) (key h : String) : Bool :=
  lookupStr st.fileHashes key == some h

/-- One iteration of the chunk loop in ingest_file (ingestion/mod.rs lines
115-148): skip an unchanged chunk, otherwise create its node, index it,
link it under the file node and store its hash. -/
def ingestChunkStep (hash : String → String) (path : String) (fileNodeId : Nat)
    (acc : Store × Nat) (chunk : Chunk) : Store × Nat :=
  let chunkKey := path ++ "::" ++ chunk.name
  let chunkHash := hash chunk.content
  if isChunkUnchanged acc.1 chunkKey chunkHash then acc
  else
    let chunkNode : Node :=
      { id := acc.1.nextId, name := chunk.name, node_type := chunk.node_type,
        file_path := some path, start_line := some (chunk.start_line : Int),
        end_line := some (chunk.end_line : Int), summary := some chunk.summary,
        content_hash := none }
    let s1 := { acc.1 with nextId := acc.1.nextId + 1 }
    let s2 := indexFts (addNode s1 chunkNode) chunkNode.id chunk.content
    let edge : Edge :=
      { id := s2.nextId, source_id := fileNodeId,
        target_id := chunkNode.id, edge_type := .contains, weight := 1 }
    let s3 := addEdge { s2 with nextId := s2.nextId + 1 } edge
    (upsertHash s3 chunkKey chunkHash, acc.2 + 1)

/-- The write phase of ingest_file on the decoded content: the file node and
its FTS row, then the chunk loop; the count starts at 1 for the file node. -/
def ingestFileCore (hash : String → String) (path content : String) (st : Store) :
    Store × Nat :=
  let chunks := chunk_file path content
  let fileNode : Node :=
    { id := st.nextId, name := path, node_type := .file, file_path := some path,
      start_line := some 1, end_line := some ((rustLines content).length : Int),
      summary := none, content_hash := some (hash content) }
  let st1 := { st with nextId := st.nextId + 1 }
  let st2 := indexFts (addNode st1 fileNode) fileNode.id content
  chunks.foldl (ingestChunkStep hash path fileNode.id) (st2, 1)

/-- IngestionPipeline::ingest_file (ingestion/mod.rs lines 94-151): read the
file (strictly, as read_to_string does), then run the write phase; the
returned count is file node plus new chunk nodes. -/
def ingestFile (hash : String → String) (fs : FS) (st : Store) (path : String) :
    Store × Option Nat :=
  match readToString fs path with
  | none => (st, none)
  | some content =>
    let out := ingestFileCore hash path content st
    (out.1, some out.2)

/-- The serial skip pass of ingest_directory (lines 40-49): an is_unchanged
error aborts the whole call through the question-mark operator. -/
def partitionFiles (hash : String → String) (fs : FS) (st : Store) :
    List String → Option (Nat × List String)
  | [] => some (0, [])
  | p :: rest => do
    let u ← isUnchanged hash fs st p
    let pr ← partitionFiles hash fs st rest
    if u then pure (pr.1 + 1, pr.2) else pure (pr.1, p :: pr.2)

/-- The file-processing map of ingest_directory (lines 51-60). -/
def ingestAll (hash : String → String) (fs : FS) :
    List String → Store → Store × List (String × Option Nat)
  | [], st => (st, [])
  | p :: rest, st =>
    let r := ingestFile hash fs st p
    let out := ingestAll hash fs rest r.1
    (out.1, (p, r.2) :: out.2)

/-- The serial reduce of ingest_directory (lines 62-76): successes bump
indexed and nodes_created and re-store the file hash; failures bump errors. -/
def reduceResults (hash : String → String) (fs : FS) :
    List (String × Option Nat) → Store → Option (Nat × Nat × Nat × Store)
  | [], st => some (0, 0, 0, st)
  | (p, some c) :: rest, st => do
    let st2 ← updateHashFromDisk hash fs st p
    let out ← reduceResults hash fs rest st2
    pure (out.1 + 1, out.2.1 + c, out.2.2.1, out.2.2.2)
  | (_, none) :: rest, st => do
    let out ← reduceResults hash fs rest st
    pure (out.1, out.2.1, out.2.2.1 + 1, out.2.2.2)

/-- KnowledgeGraph::get_all_file_paths: distinct file paths of file-typed
nodes. -/
def getAllFilePaths (st : Store) : List String :=
  ((st.nodes.filter (fun n => n.node_type = .file ∧ n.file_path ≠ none)).filterMap
    (fun n => n.file_path)).dedup

/-- KnowledgeGraph::delete_nodes_for_file: FTS rows, incident edges, then the
nodes of the given path. -/
def deleteNodesForFile (st : Store) (p : String) : Store :=
  let victims := (st.nodes.filter (fun n => n.file_path = some p)).map (fun n => n.id)
  { st with
    fts := st.fts.filter (fun r => ¬ victims.contains r.1)
    edges := st.edges.filter (fun e =>
      ¬ victims.contains e.source_id ∧ ¬ victims.contains e.target_id)
    nodes := st.nodes.filter (fun n => n.file_path ≠ some p) }

/-- IngestionPipeline::cleanup_stale_nodes (lines 85-92): delete everything
under each stored file path absent from the crawl. -/
def cleanupStaleNodes (st : Store) (crawled : List String) : Store :=
  ((getAllFilePaths st).filter (fun p => ¬ crawled.contains p)).foldl
    deleteNodesForFile st

structure IngestionReport where
  total_files : Nat
  indexed : Nat
  skipped : Nat
  errors : Nat
  nodes_created : Nat
deriving DecidableEq, Repr

/-- IngestionPipeline::ingest_directory (lines 26-82), fed the crawled
snapshot of the root directory. -/
def ingest_directory (hash : String → String) (fs : FS) (st : Store) :
    Option (IngestionReport × Store) := do
  let files := fs.map (fun e => e.1)
  let pr ← partitionFiles hash fs st files
  let ir := ingestAll hash fs pr.2 st
  let rr ← reduceResults hash fs ir.2 ir.1
  let st3 := cleanupStaleNodes rr.2.2.2 files
  pure ({ total_files := files.length, indexed := rr.1, skipped := pr.1,
          errors := rr.2.2.1, nodes_created := rr.2.1 }, st3)

theorem lookupStr_filter_ne (l : List (String × String)) (k k' : String) :
    lookupStr (l.filter (fun r => r.1 ≠ k)) k' =
      if k = k' then none else lookupStr l k' := by
  induction l with
  | nil =>
    rw [List.filter_nil]
    split <;> rfl
  | cons kv rest ih =>
    by_cases h1 : kv.1 = k
    · rw [List.filter_cons, if_neg (by simp [h1]), ih]
      by_cases h3 : k = k'
      · rw [if_pos h3, if_pos h3]
      · have hne : ¬ kv.1 = k' := fun hc => h3 (h1.symm.trans hc)
        rw [if_neg h3, if_neg h3, lookupStr, if_neg hne]
    · rw [List.filter_cons, if_pos (by simp [h1])]
      by_cases h2 : kv.1 = k'
      · have h3 : ¬ k = k' := fun hc => h1 (h2.trans hc.symm)
        rw [lookupStr, if_pos h2, if_neg h3, lookupStr, if_pos h2]
      · rw [lookupStr, if_neg h2, ih]
        by_cases h3 : k = k'
        · rw [if_pos h3, if_pos h3]
        · rw [if_neg h3, if_neg h3, lookupStr, if_neg h2]

theorem lookupStr_append_single (l : List (String × String)) (k h k' : String) :
    lookupStr (l ++ [(k, h)]) k' =
      match lookupStr l k' with
      | some w => some w
      | none => if k = k' then some h else none := by
  induction l with
  | nil => rfl
  | cons kv rest ih =>
    by_cases h1 : kv.1 = k'
    · rw [List.cons_append, lookupStr, if_pos h1, lookupStr, if_pos h1]
    · rw [List.cons_append, lookupStr, if_neg h1, lookupStr, if_neg h1, ih]

theorem lookupStr_upsertHash (st : Store) (k h k' : String) :
    lookupStr (upsertHash st k h).fileHashes k' =
      if k = k' then some h else lookupStr st.fileHashes k' := by
  show lookupStr (st.fileHashes.filter (fun r => r.1 ≠ k) ++ [(k, h)]) k' = _
  rw [lookupStr_append_single, lookupStr_filter_ne]
  by_cases hk : k = k'
  · simp [hk]
  · rcases hl : lookupStr st.fileHashes k' with _ | w <;> simp [hk, hl]

theorem addNode_fileHashes (st : Store) (n : Node) :
    (addNode st n).fileHashes = st.fileHashes := by
  rw [addNode]; split <;> rfl

theorem addEdge_fileHashes (st : Store) (e : Edge) :
    (addEdge st e).fileHashes = st.fileHashes := by
  rw [addEdge]; split <;> rfl

theorem indexFts_fileHashes (st : Store) (nid : Nat) (c : String) :
    (indexFts st nid c).fileHashes = st.fileHashes := rfl

theorem addNode_nextId (st : Store) (n : Node) :
    (addNode st n).nextId = st.nextId := by
  rw [addNode]; split <;> rfl

theorem addEdge_nodes (st : Store) (e : Edge) :
    (addEdge st e).nodes = st.nodes := by
  rw [addEdge]; split <;> rfl

theorem addEdge_nextId (st : Store) (e : Edge) :
    (addEdge st e).nextId = st.nextId := by
  rw [addEdge]; split <;> rfl

theorem indexFts_nodes (st : Store) (nid : Nat) (c : String) :
    (indexFts st nid c).nodes = st.nodes := rfl

theorem indexFts_nextId (st : Store) (nid : Nat) (c : String) :
    (indexFts st nid c).nextId = st.nextId := rfl

theorem upsertHash_nodes (st : Store) (k h : String) :
    (upsertHash st k h).nodes = st.nodes := rfl

theorem upsertHash_nextId (st : Store) (k h : String) :
    (upsertHash st k h).nextId = st.nextId := rfl

theorem ingestChunkStep_fileHashes (hash : String → String) (path : String)
    (fid : Nat) (acc : Store × Nat) (chunk : Chunk) (k : String)
    (hk : ∀ name, k ≠ path ++ "::" ++ name) :
    lookupStr (ingestChunkStep hash path fid acc chunk).1.fileHashes k =
      lookupStr acc.1.fileHashes k := by
  rw [ingestChunkStep]
  split
  · rfl
  · simp only [lookupStr_upsertHash, addEdge_fileHashes]
    rw [if_neg (fun hc => hk chunk.name hc.symm)]
    simp only [indexFts_fileHashes, addNode_fileHashes]

theorem foldl_chunkStep_fileHashes (hash : String → String) (path : String)
    (fid : Nat) (chunks : List Chunk) (acc : Store × Nat) (k : String)
    (hk : ∀ name, k ≠ path ++ "::" ++ name) :
    lookupStr (chunks.foldl (ingestChunkStep hash path fid) acc).1.fileHashes k =
      lookupStr acc.1.fileHashes k := by
  induction chunks generalizing acc with
  | nil => rfl
  | cons c rest ih =>
    rw [List.foldl_cons, ih, ingestChunkStep_fileHashes]
    exact hk

theorem ingestFile_of_read_none (hash : String → String) (fs : FS) (st : Store)
    (path : String) (h : readToString fs path = none) :
    ingestFile hash fs st path = (st, none) := by
  rw [ingestFile, h]

theorem ingestFile_isSome_of_read (hash : String → String) (fs : FS) (st : Store)
    (path c : String) (h : readToString fs path = some c) :
    (ingestFile hash fs st path).2.isSome := by
  rw [ingestFile, h]
  rfl

theorem ingestFileCore_fileHashes (hash : String → String) (path content : String)
    (st : Store) (k : String) (hk : ∀ name, k ≠ path ++ "::" ++ name) :
    lookupStr (ingestFileCore hash path content st).1.fileHashes k =
      lookupStr st.fileHashes k :=
  (foldl_chunkStep_fileHashes hash path st.nextId (chunk_file path content) _ k hk).trans
    (by rw [indexFts_fileHashes, addNode_fileHashes])

theorem ingestFile_fileHashes (hash : String → String) (fs : FS) (st : Store)
    (path : String) (k : String) (hk : ∀ name, k ≠ path ++ "::" ++ name) :
    lookupStr (ingestFile hash fs st path).1.fileHashes k =
      lookupStr st.fileHashes k := by
  rcases h : readToString fs path with _ | c
  · rw [ingestFile_of_read_none hash fs st path h]
  · rw [ingestFile, h]
    exact ingestFileCore_fileHashes hash path c st k hk

theorem ingestAll_fileHashes (hash : String → String) (fs : FS) (ps : List String)
    (st : Store) (k : String) (hk : ∀ q name, k ≠ q ++ "::" ++ name) :
    lookupStr (ingestAll hash fs ps st).1.fileHashes k =
      lookupStr st.fileHashes k := by
  induction ps generalizing st with
  | nil => rfl
  | cons p rest ih =>
    rw [ingestAll]
    rw [ih, ingestFile_fileHashes]
    exact hk p

theorem ingestAll_keys (hash : String → String) (fs : FS) (ps : List String)
    (st : Store) : ((ingestAll hash fs ps st).2).map (fun pr => pr.1) = ps := by
  induction ps generalizing st with
  | nil => rfl
  | cons p rest ih =>
    rw [ingestAll, List.map_cons, ih]

theorem ingestAll_result_isSome (hash : String → String) (fs : FS) (ps : List String)
    (st : Store) : ∀ pr ∈ (ingestAll hash fs ps st).2,
      pr.2.isSome = (readToString fs pr.1).isSome := by
  induction ps generalizing st with
  | nil => intro pr h; cases h
  | cons p rest ih =>
    intro pr hpr
    rw [ingestAll] at hpr
    rcases List.mem_cons.mp hpr with h | h
    · subst h
      show (ingestFile hash fs st p).2.isSome = (readToString fs p).isSome
      rcases hr : readToString fs p with _ | c
      · rw [ingestFile_of_read_none hash fs st p hr]
        rfl
      · rw [ingestFile, hr]
        rfl
    · exact ih _ pr h

theorem reduceResults_isSome (hash : String → String) (fs : FS)
    (results : List (String × Option Nat)) (st : Store)
    (h : ∀ pr ∈ results, pr.2.isSome → (readToString fs pr.1).isSome) :
    (reduceResults hash fs results st).isSome := by
  induction results generalizing st with
  | nil => rfl
  | cons pr rest ih =>
    obtain ⟨p, r⟩ := pr
    rcases r with _ | c
    · rw [reduceResults]
      have hr := ih st (fun q hq hs => h q (List.mem_cons_of_mem _ hq) hs)
      rcases ho : reduceResults hash fs rest st with _ | out
      · rw [ho] at hr; cases hr
      · rfl
    · have hread : (readToString fs p).isSome :=
        h (p, some c) (List.mem_cons_self _ _) rfl
      rcases hrd : readToString fs p with _ | cc
      · rw [hrd] at hread; cases hread
      · rw [reduceResults, updateHashFromDisk, hrd]
        have hr := ih (upsertHash st p (hash cc))
          (fun q hq hs => h q (List.mem_cons_of_mem _ hq) hs)
        show ((reduceResults hash fs rest (upsertHash st p (hash cc))).bind
          fun o => some (o.1 + 1, o.2.1 + c, o.2.2.1, o.2.2.2)).isSome = true
        rcases ho : reduceResults hash fs rest (upsertHash st p (hash cc)) with _ | out
        · rw [ho] at hr; cases hr
        · rfl

theorem reduceResults_fileHashes_of_absent (hash : String → String) (fs : FS)
    (results : List (String × Option Nat)) (st : Store) (out : Nat × Nat × Nat × Store)
    (hred : reduceResults hash fs results st = some out) (k : String)
    (hk : ∀ pr ∈ results, pr.1 ≠ k) :
    lookupStr out.2.2.2.fileHashes k = lookupStr st.fileHashes k := by
  induction results generalizing st out with
  | nil =>
    rw [reduceResults] at hred
    cases hred
    rfl
  | cons pr rest ih =>
    obtain ⟨p, r⟩ := pr
    rcases r with _ | c
    · rw [reduceResults] at hred
      rcases ho : reduceResults hash fs rest st with _ | out2
      · rw [ho] at hred
        exact Option.noConfusion hred
      · rw [ho] at hred
        cases hred
        exact ih st out2 ho (fun q hq => hk q (List.mem_cons_of_mem _ hq))
    · rw [reduceResults, updateHashFromDisk] at hred
      rcases hrd : readToString fs p with _ | cc
      · rw [hrd] at hred
        exact Option.noConfusion hred
      · rw [hrd] at hred
        have hred2 : ((reduceResults hash fs rest (upsertHash st p (hash cc))).bind
            fun o => some (o.1 + 1, o.2.1 + c, o.2.2.1, o.2.2.2)) = some out := hred
        rcases ho : reduceResults hash fs rest (upsertHash st p (hash cc)) with _ | out2
        · rw [ho] at hred2
          exact Option.noConfusion hred2
        · rw [ho] at hred2
          cases hred2
          rw [ih _ out2 ho (fun q hq => hk q (List.mem_cons_of_mem _ hq)),
            lookupStr_upsertHash,
            if_neg (hk (p, some c) (List.mem_cons_self _ _))]

theorem reduceResults_fileHashes_of_success (hash : String → String) (fs : FS)
    (results : List (String × Option Nat)) (st : Store) (out : Nat × Nat × Nat × Store)
    (hred : reduceResults hash fs results st = some out)
    (hnodup : (results.map (fun pr => pr.1)).Nodup)
    (p c : String) (cnt : Nat) (hmem : (p, some cnt) ∈ results)
    (hrd : readToString fs p = some c) :
    lookupStr out.2.2.2.fileHashes p = some (hash c) := by
  induction results generalizing st out with
  | nil => cases hmem
  | cons pr rest ih =>
    obtain ⟨q, r⟩ := pr
    rcases List.mem_cons.mp hmem with hh | hh
    · injection hh with hq hr
      subst hq
      subst hr
      rw [reduceResults, updateHashFromDisk, hrd] at hred
      have hred2 : ((reduceResults hash fs rest (upsertHash st p (hash c))).bind
          fun o => some (o.1 + 1, o.2.1 + cnt, o.2.2.1, o.2.2.2)) = some out := hred
      rcases ho : reduceResults hash fs rest (upsertHash st p (hash c)) with _ | out2
      · rw [ho] at hred2
        exact Option.noConfusion hred2
      · rw [ho] at hred2
        cases hred2
        have hnp : ∀ pr ∈ rest, pr.1 ≠ p := by
          intro pr hpr hc
          rw [List.map_cons, List.nodup_cons] at hnodup
          exact hnodup.1 (hc ▸ List.mem_map.mpr ⟨pr, hpr, rfl⟩)
        rw [reduceResults_fileHashes_of_absent hash fs rest _ out2 ho p hnp,
          lookupStr_upsertHash, if_pos rfl]
    · have hnodup2 : (rest.map (fun pr => pr.1)).Nodup := by
        rw [List.map_cons, List.nodup_cons] at hnodup
        exact hnodup.2
      rcases r with _ | c0
      · rw [reduceResults] at hred
        rcases ho : reduceResults hash fs rest st with _ | out2
        · rw [ho] at hred
          exact Option.noConfusion hred
        · rw [ho] at hred
          cases hred
          exact ih st out2 ho hnodup2 hh
      · rw [reduceResults, updateHashFromDisk] at hred
        rcases hrd2 : readToString fs q with _ | cq
        · rw [hrd2] at hred
          exact Option.noConfusion hred
        · rw [hrd2] at hred
          have hred2 : ((reduceResults hash fs rest (upsertHash st q (hash cq))).bind
              fun o => some (o.1 + 1, o.2.1 + c0, o.2.2.1, o.2.2.2)) = some out := hred
          rcases ho : reduceResults hash fs rest (upsertHash st q (hash cq)) with _ | out2
          · rw [ho] at hred2
            exact Option.noConfusion hred2
          · rw [ho] at hred2
            cases hred2
            exact ih _ out2 ho hnodup2 hh

theorem ne_chunk_key (p : String) (h : (':' : Char) ∉ p.data) :
    ∀ q name, p ≠ q ++ "::" ++ name := by
  intro q name hc
  apply h
  rw [hc, String.data_append, String.data_append]
  refine List.mem_append.mpr (Or.inl (List.mem_append.mpr (Or.inr ?_)))
  show (':' : Char) ∈ ("::" : String).data
  decide

theorem readToString_readable : ∀ fs : FS,
    (∀ e ∈ fs, ∃ s, e.2 = FileData.utf8 s) →
    ∀ p ∈ fs.map (fun e => e.1), ∃ c, readToString fs p = some c := by
  intro fs
  induction fs with
  | nil => intro _ p hp; cases hp
  | cons e rest ih =>
    intro hread p hp
    rw [readToString]
    by_cases he : e.1 = p
    · obtain ⟨s, hs⟩ := hread e (List.mem_cons_self _ _)
      rw [if_pos he, hs]
      exact ⟨s, rfl⟩
    · rw [if_neg he]
      rw [List.map_cons] at hp
      rcases List.mem_cons.mp hp with h1 | h1
      · exact absurd h1.symm he
      · exact ih (fun e2 he2 => hread e2 (List.mem_cons_of_mem _ he2)) p h1

theorem isUnchanged_some_true (hash : String → String) (fs : FS) (st : Store)
    (p c : String) (h : isUnchanged hash fs st p = some true)
    (hrd : readToString fs p = some c) :
    lookupStr st.fileHashes p = some (hash c) := by
  rw [isUnchanged] at h
  rcases hl : lookupStr st.fileHashes p with _ | stored
  · rw [hl] at h
    have h3 : (some false : Option Bool) = some true := h
    exact Bool.noConfusion (Option.some.inj h3)
  · rw [hl, hrd] at h
    have h3 : some (stored == hash c) = some true := h
    have h4 := eq_of_beq (Option.some.inj h3)
    rw [h4]

theorem isUnchanged_of_stored (hash : String → String) (fs : FS) (st : Store)
    (p c : String) (hl : lookupStr st.fileHashes p = some (hash c))
    (hrd : readToString fs p = some c) :
    isUnchanged hash fs st p = some true := by
  rw [isUnchanged, hl, hrd]
  show some ((hash c) == (hash c)) = some true
  rw [beq_self_eq_true]

theorem partition_inv (hash : String → String) (fs : FS) (st : Store) :
    ∀ (ps : List String) (out : Nat × List String),
      partitionFiles hash fs st ps = some out →
      out.2.Sublist ps ∧ ∀ p ∈ ps, p ∈ out.2 ∨ isUnchanged hash fs st p = some true := by
  intro ps
  induction ps with
  | nil =>
    intro out h
    rw [partitionFiles] at h
    cases h
    exact ⟨List.Sublist.refl _, by intro p hp; cases hp⟩
  | cons p rest ih =>
    intro out h
    have h2 : ((isUnchanged hash fs st p).bind fun u =>
        (partitionFiles hash fs st rest).bind fun pr =>
          if u then some (pr.1 + 1, pr.2) else some (pr.1, p :: pr.2)) = some out := h
    rcases hu : isUnchanged hash fs st p with _ | u
    · rw [hu] at h2
      exact Option.noConfusion h2
    · rw [hu] at h2
      simp only [Option.some_bind] at h2
      rcases hp2 : partitionFiles hash fs st rest with _ | pr0
      · rw [hp2] at h2
        exact Option.noConfusion h2
      · rw [hp2] at h2
        simp only [Option.some_bind] at h2
        obtain ⟨hsub, hcov⟩ := ih pr0 hp2
        cases u with
        | true =>
          rw [if_pos rfl] at h2
          cases h2
          refine ⟨hsub.trans (List.sublist_cons_self p rest), ?_⟩
          intro q hq
          rcases List.mem_cons.mp hq with hq | hq
          · subst hq
            exact Or.inr hu
          · rcases hcov q hq with hmem | hunch
            · exact Or.inl hmem
            · exact Or.inr hunch
        | false =>
          rw [if_neg Bool.false_ne_true] at h2
          cases h2
          refine ⟨List.Sublist.cons₂ p hsub, ?_⟩
          intro q hq
          rcases List.mem_cons.mp hq with hq | hq
          · subst hq
            exact Or.inl (List.mem_cons_self _ _)
          · rcases hcov q hq with hmem | hunch
            · exact Or.inl (List.mem_cons_of_mem _ hmem)
            · exact Or.inr hunch

theorem partition_all_unchanged (hash : String → String) (fs : FS) (st : Store) :
    ∀ ps : List String, (∀ p ∈ ps, isUnchanged hash fs st p = some true) →
      partitionFiles hash fs st ps = some (ps.length, []) := by
  intro ps
  induction ps with
  | nil => intro _; rfl
  | cons p rest ih =>
    intro h
    show ((isUnchanged hash fs st p).bind fun u =>
        (partitionFiles hash fs st rest).bind fun pr =>
          if u then some (pr.1 + 1, pr.2) else some (pr.1, p :: pr.2)) =
      some ((p :: rest).length, [])
    rw [h p (List.mem_cons_self _ _), ih (fun q hq => h q (List.mem_cons_of_mem _ hq))]
    rfl

theorem foldl_delete_fileHashes (qs : List String) : ∀ st : Store,
    (List.foldl deleteNodesForFile st qs).fileHashes = st.fileHashes := by
  induction qs with
  | nil => intro st; rfl
  | cons q rest ih =>
    intro st
    rw [List.foldl_cons]
    exact ih (deleteNodesForFile st q)

theorem cleanup_fileHashes (st : Store) (crawled : List String) :
    (cleanupStaleNodes st crawled).fileHashes = st.fileHashes := by
  rw [cleanupStaleNodes]
  exact foldl_delete_fileHashes _ st

theorem foldl_delete_nodes (qs : List String) : ∀ st : Store,
    (List.foldl deleteNodesForFile st qs).nodes =
      st.nodes.filter (fun n => qs.all fun q => n.file_path ≠ some q) := by
  induction qs with
  | nil =>
    intro st
    simp
  | cons q rest ih =>
    intro st
    rw [List.foldl_cons, ih]
    show ((st.nodes.filter fun n => n.file_path ≠ some q).filter
        fun n => rest.all fun q2 => n.file_path ≠ some q2) = _
    rw [List.filter_filter]
    apply List.filter_congr
    intro n _
    show (rest.all (fun q2 => decide (n.file_path ≠ some q2)) &&
        decide (n.file_path ≠ some q)) =
      (q :: rest).all fun q2 => decide (n.file_path ≠ some q2)
    rw [List.all_cons]
    exact Bool.and_comm _ _

theorem mem_getAllFilePaths (st : Store) (pth : String) :
    pth ∈ getAllFilePaths st ↔
      ∃ n ∈ st.nodes, n.node_type = NodeType.file ∧ n.file_path = some pth := by
  rw [getAllFilePaths, List.mem_dedup, List.mem_filterMap]
  constructor
  · rintro ⟨n, hn, hf⟩
    rw [List.mem_filter] at hn
    obtain ⟨hn0, hp⟩ := hn
    simp only [decide_eq_true_eq] at hp
    exact ⟨n, hn0, hp.1, hf⟩
  · rintro ⟨n, hn, hty, hfp⟩
    refine ⟨n, ?_, hfp⟩
    rw [List.mem_filter]
    refine ⟨hn, ?_⟩
    simp only [decide_eq_true_eq]
    exact ⟨hty, by rw [hfp]; exact fun hc => Option.noConfusion hc⟩

theorem cleanup_paths (st : Store) (crawled : List String) (pth : String)
    (h : pth ∈ getAllFilePaths (cleanupStaleNodes st crawled)) : pth ∈ crawled := by
  rw [mem_getAllFilePaths] at h
  obtain ⟨n, hn, hty, hfp⟩ := h
  rw [cleanupStaleNodes, foldl_delete_nodes, List.mem_filter] at hn
  obtain ⟨hn0, hall⟩ := hn
  by_contra hnc
  have hmem : pth ∈ getAllFilePaths st := (mem_getAllFilePaths st pth).mpr ⟨n, hn0, hty, hfp⟩
  have hstale : pth ∈ (getAllFilePaths st).filter fun p => ¬ crawled.contains p := by
    rw [List.mem_filter]
    refine ⟨hmem, ?_⟩
    simp only [decide_eq_true_eq]
    intro hc
    exact hnc (by simpa [List.contains] using hc)
  have hq := List.all_eq_true.mp hall pth hstale
  simp only [decide_eq_true_eq] at hq
  exact hq hfp

theorem cleanup_id (st : Store) (crawled : List String)
    (h : ∀ pth ∈ getAllFilePaths st, pth ∈ crawled) :
    cleanupStaleNodes st crawled = st := by
  rw [cleanupStaleNodes]
  have hnil : ((getAllFilePaths st).filter fun p => ¬ crawled.contains p) = [] := by
    rw [List.filter_eq_nil_iff]
    intro p hp
    simp only [decide_eq_true_eq]
    intro hc
    exact hc (by simpa [List.contains] using h p hp)
  rw [hnil]
  rfl

theorem ingest_directory_inv (hash : String → String) (fs : FS) (st : Store)
    (r : IngestionReport) (stOut : Store)
    (h : ingest_directory hash fs st = some (r, stOut)) :
    ∃ pr rr, partitionFiles hash fs st (fs.map (fun e => e.1)) = some pr ∧
      reduceResults hash fs (ingestAll hash fs pr.2 st).2
        (ingestAll hash fs pr.2 st).1 = some rr ∧
      r = { total_files := (fs.map (fun e => e.1)).length, indexed := rr.1,
            skipped := pr.1, errors := rr.2.2.1, nodes_created := rr.2.1 } ∧
      stOut = cleanupStaleNodes rr.2.2.2 (fs.map (fun e => e.1)) := by
  have h2 : ((partitionFiles hash fs st (fs.map (fun e => e.1))).bind fun pr =>
      (reduceResults hash fs (ingestAll hash fs pr.2 st).2
        (ingestAll hash fs pr.2 st).1).bind fun rr =>
        some ({ total_files := (fs.map (fun e => e.1)).length, indexed := rr.1,
                skipped := pr.1, errors := rr.2.2.1, nodes_created := rr.2.1 },
          cleanupStaleNodes rr.2.2.2 (fs.map (fun e => e.1)))) = some (r, stOut) := h
  rcases hpr : partitionFiles hash fs st (fs.map (fun e => e.1)) with _ | pr
  · rw [hpr] at h2
    exact Option.noConfusion h2
  · rw [hpr] at h2
    simp only [Option.some_bind] at h2
    rcases hrr : reduceResults hash fs (ingestAll hash fs pr.2 st).2
        (ingestAll hash fs pr.2 st).1 with _ | rr
    · rw [hrr] at h2
      exact Option.noConfusion h2
    · rw [hrr] at h2
      simp only [Option.some_bind] at h2
      injection h2 with h3
      refine ⟨pr, rr, hpr, hrr, ?_, ?_⟩
      · exact (congrArg Prod.fst h3).symm
      · exact (congrArg Prod.snd h3).symm

theorem run1_hashes (hash : String → String) (fs : FS) (st : Store)
    (r1 : IngestionReport) (st1 : Store)
    (hnodup : (fs.map (fun e => e.1)).Nodup)
    (hsep : ∀ e ∈ fs, (':' : Char) ∉ e.1.data)
    (hrun1 : ingest_directory hash fs st = some (r1, st1)) :
    ∀ p c, p ∈ fs.map (fun e => e.1) → readToString fs p = some c →
      lookupStr st1.fileHashes p = some (hash c) := by
  obtain ⟨pr, rr, hpr, hrr, hrep, hstout⟩ := ingest_directory_inv hash fs st r1 st1 hrun1
  intro p c hp hrd
  have hkey : ∀ q name, p ≠ q ++ "::" ++ name := by
    obtain ⟨e, he, hfst⟩ := List.mem_map.mp hp
    exact ne_chunk_key p (hfst ▸ hsep e he)
  rw [hstout, cleanup_fileHashes]
  obtain ⟨hsub, hcov⟩ := partition_inv hash fs st (fs.map fun e => e.1) pr hpr
  by_cases hmem : p ∈ pr.2
  · have hkeys := ingestAll_keys hash fs pr.2 st
    have hex : ∃ q ∈ (ingestAll hash fs pr.2 st).2, q.1 = p := by
      apply List.mem_map.mp
      rw [hkeys]
      exact hmem
    obtain ⟨⟨qa, qb⟩, hq, hq1⟩ := hex
    have hq1a : qa = p := hq1
    subst hq1a
    have hres := ingestAll_result_isSome hash fs pr.2 st (qa, qb) hq
    have hres2 : qb.isSome = (readToString fs qa).isSome := hres
    rw [hrd] at hres2
    rcases hq2 : qb with _ | cnt
    · rw [hq2] at hres2
      cases hres2
    · rw [hq2] at hq
      exact reduceResults_fileHashes_of_success hash fs _ _ rr hrr
        (by rw [ingestAll_keys]; exact List.Nodup.sublist hsub hnodup) qa c cnt hq hrd
  · have hunch : isUnchanged hash fs st p = some true := by
      rcases hcov p hp with h1 | h1
      · exact absurd h1 hmem
      · exact h1
    have hstored := isUnchanged_some_true hash fs st p c hunch hrd
    have habs : ∀ q ∈ (ingestAll hash fs pr.2 st).2, q.1 ≠ p := by
      intro q hq hc
      apply hmem
      rw [← ingestAll_keys hash fs pr.2 st]
      exact hc ▸ List.mem_map.mpr ⟨q, hq, rfl⟩
    rw [reduceResults_fileHashes_of_absent hash fs _ _ rr hrr p habs]
    rw [ingestAll_fileHashes hash fs pr.2 st p hkey]
    exact hstored

theorem run1_paths (hash : String → String) (fs : FS) (st : Store)
    (r1 : IngestionReport) (st1 : Store)
    (hrun1 : ingest_directory hash fs st = some (r1, st1)) :
    ∀ pth ∈ getAllFilePaths st1, pth ∈ fs.map (fun e => e.1) := by
  obtain ⟨pr, rr, hpr, hrr, hrep, hstout⟩ := ingest_directory_inv hash fs st r1 st1 hrun1
  intro pth hpth
  rw [hstout] at hpth
  exact cleanup_paths _ _ _ hpth

/-- Claim C1, counterexample: on a root holding one unreadable file (non-UTF-8
bytes), the first ingest leaves the store untouched and reports one error;
re-running with no filesystem change reproduces the same report, whose
skipped count is 0, not total_files = 1 — the file is never hashed, so it is
re-attempted and re-fails forever instead of being skipped. -/
theorem c1_reingest_counterexample :
    ∃ rep st1,
      ingest_directory (fun s => s) [("a.rs", FileData.invalid)] emptyStore =
          some (rep, st1) ∧
      ingest_directory (fun s => s) [("a.rs", FileData.invalid)] st1 =
          some (rep, st1) ∧
      rep.skipped ≠ rep.total_files := by
  refine ⟨⟨1, 0, 0, 1, 0⟩, emptyStore, rfl, rfl, by decide⟩

/-- Claim C1, amended: if the crawled paths are duplicate-free, colon-free and
every file is readable as UTF-8, then after a successful ingest a second
ingest with no filesystem change succeeds with indexed = 0, skipped =
total_files, errors = 0, nodes_created = 0, and returns the identical store,
so in particular the total node count is unchanged. -/
theorem c1_reingest_amended (hash : String → String) (fs : FS) (st : Store)
    (r1 : IngestionReport) (st1 : Store)
    (hnodup : (fs.map (fun e => e.1)).Nodup)
    (hread : ∀ e ∈ fs, ∃ s, e.2 = FileData.utf8 s)
    (hsep : ∀ e ∈ fs, (':' : Char) ∉ e.1.data)
    (hrun1 : ingest_directory hash fs st = some (r1, st1)) :
    ingest_directory hash fs st1 =
      some ({ total_files := fs.length, indexed := 0, skipped := fs.length,
              errors := 0, nodes_created := 0 }, st1) := by
  have hpa : partitionFiles hash fs st1 (fs.map (fun e => e.1)) =
      some ((fs.map (fun e => e.1)).length, []) := by
    apply partition_all_unchanged
    intro p hp
    obtain ⟨c, hc⟩ := readToString_readable fs hread p hp
    exact isUnchanged_of_stored hash fs st1 p c
      (run1_hashes hash fs st r1 st1 hnodup hsep hrun1 p c hp hc) hc
  have hcl : cleanupStaleNodes st1 (fs.map (fun e => e.1)) = st1 :=
    cleanup_id st1 _ (run1_paths hash fs st r1 st1 hrun1)
  show ((partitionFiles hash fs st1 (fs.map (fun e => e.1))).bind fun pr =>
      (reduceResults hash fs (ingestAll hash fs pr.2 st1).2
        (ingestAll hash fs pr.2 st1).1).bind fun rr =>
        some ((⟨(fs.map (fun e => e.1)).length, rr.1, pr.1, rr.2.2.1, rr.2.1⟩ :
            IngestionReport),
          cleanupStaleNodes rr.2.2.2 (fs.map (fun e => e.1)))) =
    some (⟨fs.length, 0, fs.length, 0, 0⟩, st1)
  rw [hpa]
  simp only [Option.some_bind]
  show some ((⟨(fs.map (fun e => e.1)).length, 0, (fs.map (fun e => e.1)).length,
        0, 0⟩ : IngestionReport),
      cleanupStaleNodes st1 (fs.map (fun e => e.1))) =
    some (⟨fs.length, 0, fs.length, 0, 0⟩, st1)
  rw [hcl, List.length_map]

/-- Witness for C1: a root with the single readable file a.rs is ingested
once from the empty store; the second run skips it and returns the same
store. -/
theorem c1_reingest_amended_witness :
    ∃ r1 st1,
      ingest_directory (fun s => s) [("a.rs", FileData.utf8 "pub fn main();")]
          emptyStore = some (r1, st1) ∧
      ingest_directory (fun s => s) [("a.rs", FileData.utf8 "pub fn main();")] st1 =
        some ({ total_files := 1, indexed := 0, skipped := 1, errors := 0,
                nodes_created := 0 }, st1) := by
  refine ⟨_, _, rfl, ?_⟩
  exact c1_reingest_amended (fun s => s) [("a.rs", FileData.utf8 "pub fn main();")]
    emptyStore _ _ (by decide)
    (by
      intro e he
      rw [List.mem_singleton] at he
      subst he
      exact ⟨"pub fn main();", rfl⟩)
    (by decide) rfl

theorem addNode_nodes_fresh (st : Store) (n : Node)
    (h : ∀ m ∈ st.nodes, m.id ≠ n.id) :
    (addNode st n).nodes = st.nodes ++ [n] := by
  have hc : st.nodes.any (fun m => m.id = n.id) = false := by
    rw [List.any_eq_false]
    intro m hm
    simp only [decide_eq_true_eq]
    exact h m hm
  rw [addNode, hc]
  rw [if_neg Bool.false_ne_true]

/-- The store writes of one changed chunk in ingest_file: node row, FTS row,
contains edge from the file node, chunk-hash row. -/
def chunkWrite (st : Store) (cn : Node) (fileNodeId : Nat)
    (content key hv : String) : Store :=
  let s2 := indexFts (addNode st cn) cn.id content
  let edge : Edge := ⟨s2.nextId, fileNodeId, cn.id, EdgeType.contains, 1⟩
  upsertHash (addEdge { s2 with nextId := s2.nextId + 1 } edge) key hv

theorem chunkWrite_nodes (st : Store) (cn : Node) (fid : Nat) (content key hv : String)
    (hfr : ∀ m ∈ st.nodes, m.id ≠ cn.id) :
    (chunkWrite st cn fid content key hv).nodes = st.nodes ++ [cn] := by
  simp only [chunkWrite]
  rw [upsertHash_nodes, addEdge_nodes]
  show (indexFts (addNode st cn) cn.id content).nodes = st.nodes ++ [cn]
  rw [indexFts_nodes]
  exact addNode_nodes_fresh st cn hfr

theorem chunkWrite_nextId (st : Store) (cn : Node) (fid : Nat)
    (content key hv : String) :
    (chunkWrite st cn fid content key hv).nextId = st.nextId + 1 := by
  simp only [chunkWrite]
  rw [upsertHash_nextId, addEdge_nextId]
  show (indexFts (addNode st cn) cn.id content).nextId + 1 = st.nextId + 1
  rw [indexFts_nextId, addNode_nextId]

theorem ingestChunkStep_nodes (hash : String → String) (path : String) (fid : Nat)
    (acc : Store × Nat) (c : Chunk) (h : ∀ n ∈ acc.1.nodes, n.id < acc.1.nextId) :
    ∃ new, (ingestChunkStep hash path fid acc c).1.nodes = acc.1.nodes ++ new ∧
      (∀ m ∈ new, acc.1.nextId ≤ m.id) ∧
      acc.1.nextId ≤ (ingestChunkStep hash path fid acc c).1.nextId ∧
      ∀ n ∈ (ingestChunkStep hash path fid acc c).1.nodes,
        n.id < (ingestChunkStep hash path fid acc c).1.nextId := by
  have hstep : ingestChunkStep hash path fid acc c =
      if isChunkUnchanged acc.1 (path ++ "::" ++ c.name) (hash c.content) then acc
      else (chunkWrite { acc.1 with nextId := acc.1.nextId + 1 }
          ⟨acc.1.nextId, c.name, c.node_type, some path, some (c.start_line : Int),
            some (c.end_line : Int), some c.summary, none⟩ fid c.content
          (path ++ "::" ++ c.name) (hash c.content), acc.2 + 1) := rfl
  by_cases hc : isChunkUnchanged acc.1 (path ++ "::" ++ c.name) (hash c.content) = true
  · rw [hstep, if_pos hc]
    exact ⟨[], (List.append_nil _).symm, ⟨fun m hm => absurd hm (List.not_mem_nil m),
      ⟨Nat.le_refl _, h⟩⟩⟩
  · rw [hstep, if_neg hc]
    have hfr2 : ∀ m ∈ ({ acc.1 with nextId := acc.1.nextId + 1 } : Store).nodes,
        m.id ≠ (⟨acc.1.nextId, c.name, c.node_type, some path,
          some (c.start_line : Int), some (c.end_line : Int), some c.summary,
          none⟩ : Node).id :=
      fun m hm => Nat.ne_of_lt (h m hm)
    refine ⟨[⟨acc.1.nextId, c.name, c.node_type, some path, some (c.start_line : Int),
      some (c.end_line : Int), some c.summary, none⟩], ?_, ?_, ?_, ?_⟩
    · exact chunkWrite_nodes _ _ _ _ _ _ hfr2
    · intro m hm
      rw [List.mem_singleton] at hm
      subst hm
      exact Nat.le_refl _
    · refine le_of_le_of_eq ?_ (chunkWrite_nextId _ _ _ _ _ _).symm
      exact Nat.le_succ_of_le (Nat.le_succ _)
    · intro n hn
      rw [chunkWrite_nodes _ _ fid c.content _ _ hfr2] at hn
      rw [chunkWrite_nextId]
      rcases List.mem_append.mp hn with h1 | h1
      · exact Nat.lt_succ_of_lt (Nat.lt_succ_of_lt (h n h1))
      · rw [List.mem_singleton] at h1
        subst h1
        exact Nat.lt_succ_of_lt (Nat.lt_succ_self _)

theorem foldl_chunkStep_nodes (hash : String → String) (path : String) (fid : Nat) :
    ∀ (chunks : List Chunk) (acc : Store × Nat),
      (∀ n ∈ acc.1.nodes, n.id < acc.1.nextId) →
      ∃ new, (List.foldl (ingestChunkStep hash path fid) acc chunks).1.nodes =
          acc.1.nodes ++ new ∧
        (∀ m ∈ new, acc.1.nextId ≤ m.id) ∧
        acc.1.nextId ≤ (List.foldl (ingestChunkStep hash path fid) acc chunks).1.nextId ∧
        ∀ n ∈ (List.foldl (ingestChunkStep hash path fid) acc chunks).1.nodes,
          n.id < (List.foldl (ingestChunkStep hash path fid) acc chunks).1.nextId := by
  intro chunks
  induction chunks with
  | nil =>
    intro acc h
    exact ⟨[], (List.append_nil _).symm, ⟨fun m hm => absurd hm (List.not_mem_nil m),
      ⟨Nat.le_refl _, h⟩⟩⟩
  | cons c rest ih =>
    intro acc h
    obtain ⟨new1, hn1, hid1, hle1, hinv1⟩ := ingestChunkStep_nodes hash path fid acc c h
    obtain ⟨new2, hn2, hid2, hle2, hinv2⟩ :=
      ih (ingestChunkStep hash path fid acc c) hinv1
    refine ⟨new1 ++ new2, ?_, ?_, ?_, ?_⟩
    · rw [List.foldl_cons, hn2, hn1, List.append_assoc]
    · intro m hm
      rcases List.mem_append.mp hm with h1 | h1
      · exact hid1 m h1
      · exact Nat.le_trans hle1 (hid2 m h1)
    · rw [List.foldl_cons]
      exact Nat.le_trans hle1 hle2
    · intro n hn
      rw [List.foldl_cons] at hn
      rw [List.foldl_cons]
      exact hinv2 n hn

theorem ingestFileCore_nodes (hash : String → String) (path content : String)
    (st : Store) (h : ∀ n ∈ st.nodes, n.id < st.nextId) :
    ∃ new, (ingestFileCore hash path content st).1.nodes = st.nodes ++ new ∧
      (∃ fn ∈ new, fn.node_type = NodeType.file ∧ fn.file_path = some path ∧
        fn.id = st.nextId) ∧
      ∀ m ∈ new, st.nextId ≤ m.id := by
  have hkey : ingestFileCore hash path content st =
      List.foldl (ingestChunkStep hash path st.nextId)
        (indexFts (addNode { st with nextId := st.nextId + 1 }
          ⟨st.nextId, path, NodeType.file, some path, some 1,
            some ((rustLines content).length : Int), none, some (hash content)⟩)
          st.nextId content, 1)
        (chunk_file path content) := rfl
  have hn0 : (indexFts (addNode { st with nextId := st.nextId + 1 }
      ⟨st.nextId, path, NodeType.file, some path, some 1,
        some ((rustLines content).length : Int), none, some (hash content)⟩)
      st.nextId content).nodes =
      st.nodes ++ [⟨st.nextId, path, NodeType.file, some path, some 1,
        some ((rustLines content).length : Int), none, some (hash content)⟩] := by
    rw [indexFts_nodes]
    exact addNode_nodes_fresh _ _ (fun m hm => Nat.ne_of_lt (h m hm))
  have hinv0 : ∀ n ∈ (indexFts (addNode { st with nextId := st.nextId + 1 }
      ⟨st.nextId, path, NodeType.file, some path, some 1,
        some ((rustLines content).length : Int), none, some (hash content)⟩)
      st.nextId content, 1).1.nodes,
      n.id < (indexFts (addNode { st with nextId := st.nextId + 1 }
        ⟨st.nextId, path, NodeType.file, some path, some 1,
          some ((rustLines content).length : Int), none, some (hash content)⟩)
        st.nextId content, 1).1.nextId := by
    intro n hn
    have hn2 : n ∈ st.nodes ++ [⟨st.nextId, path, NodeType.file, some path, some 1,
        some ((rustLines content).length : Int), none, some (hash content)⟩] := by
      rw [← hn0]
      exact hn
    show n.id < (indexFts (addNode { st with nextId := st.nextId + 1 }
      ⟨st.nextId, path, NodeType.file, some path, some 1,
        some ((rustLines content).length : Int), none, some (hash content)⟩)
      st.nextId content).nextId
    rw [indexFts_nextId, addNode_nextId]
    show n.id < st.nextId + 1
    rcases List.mem_append.mp hn2 with h1 | h1
    · exact Nat.lt_succ_of_lt (h n h1)
    · rw [List.mem_singleton] at h1
      subst h1
      exact Nat.lt_succ_self _
  obtain ⟨new2, hset, hids, hle, hinv⟩ := foldl_chunkStep_nodes hash path st.nextId
    (chunk_file path content)
    (indexFts (addNode { st with nextId := st.nextId + 1 }
      ⟨st.nextId, path, NodeType.file, some path, some 1,
        some ((rustLines content).length : Int), none, some (hash content)⟩)
      st.nextId content, 1) hinv0
  refine ⟨⟨st.nextId, path, NodeType.file, some path, some 1,
      some ((rustLines content).length : Int), none, some (hash content)⟩ :: new2,
    ?_, ⟨_, List.mem_cons_self _ _, rfl, rfl, rfl⟩, ?_⟩
  · rw [hkey, hset]
    show (indexFts (addNode { st with nextId := st.nextId + 1 }
      ⟨st.nextId, path, NodeType.file, some path, some 1,
        some ((rustLines content).length : Int), none, some (hash content)⟩)
      st.nextId content).nodes ++ new2 = _
    rw [hn0, List.append_assoc, List.singleton_append]
  · intro m hm
    rcases List.mem_cons.mp hm with h1 | h1
    · subst h1
      exact Nat.le_refl _
    · have h2 := hids m h1
      have hni : (indexFts (addNode { st with nextId := st.nextId + 1 }
          ⟨st.nextId, path, NodeType.file, some path, some 1,
            some ((rustLines content).length : Int), none, some (hash content)⟩)
          st.nextId content, 1).1.nextId = st.nextId + 1 := by
        show (indexFts (addNode { st with nextId := st.nextId + 1 }
          ⟨st.nextId, path, NodeType.file, some path, some 1,
            some ((rustLines content).length : Int), none, some (hash content)⟩)
          st.nextId content).nextId = st.nextId + 1
        rw [indexFts_nextId, addNode_nextId]
      rw [hni] at h2
      exact Nat.le_trans (Nat.le_succ _) h2

/-- Claim C4: ingest_file never replaces or deletes earlier rows for a
still-present file. Under the fresh-id invariant (every stored node id is
below the id counter, the model of fresh random UUIDs), the write phase of
ingest_file strictly appends: the old nodes survive unchanged, a new file
node for the path is inserted with a fresh id, every inserted node has a
fresh id, and the stale-node sweep keeps every node of a path that is still
in the crawl, so nodes for a modified file accumulate across ingests. -/
theorem c4_nodes_accumulate (hash : String → String) (path content : String)
    (st : Store) (hfresh : ∀ n ∈ st.nodes, n.id < st.nextId) :
    (∃ new, (ingestFileCore hash path content st).1.nodes = st.nodes ++ new ∧
      (∃ fn ∈ new, fn.node_type = NodeType.file ∧ fn.file_path = some path ∧
        fn.id = st.nextId) ∧
      ∀ m ∈ new, st.nextId ≤ m.id) ∧
    ∀ (st2 : Store) (crawled : List String), path ∈ crawled →
      ∀ m ∈ st2.nodes, m.file_path = some path →
        m ∈ (cleanupStaleNodes st2 crawled).nodes := by
  refine ⟨ingestFileCore_nodes hash path content st hfresh, ?_⟩
  intro st2 crawled hpc m hm hmp
  rw [cleanupStaleNodes, foldl_delete_nodes, List.mem_filter]
  refine ⟨hm, ?_⟩
  rw [List.all_eq_true]
  intro q hq
  simp only [decide_eq_true_eq]
  rw [List.mem_filter] at hq
  obtain ⟨hq1, hq2⟩ := hq
  simp only [decide_eq_true_eq] at hq2
  intro hcq
  rw [hmp] at hcq
  have hqp : path = q := Option.some.inj hcq
  subst hqp
  exact hq2 (by simpa [List.contains] using hpc)

/-- Witness for C4: re-ingesting a.rs over a store that already holds an
earlier node for a.rs appends fresh-id nodes and keeps the old row. -/
theorem c4_nodes_accumulate_witness :
    (∃ new, (ingestFileCore (fun s => s) "a.rs" "pub fn main();"
        ⟨[⟨0, "a.rs", NodeType.file, some "a.rs", some 1, some 1, none, some "old"⟩],
          [], [], [], 1⟩).1.nodes =
        [⟨0, "a.rs", NodeType.file, some "a.rs", some 1, some 1, none, some "old"⟩] ++
          new ∧
      (∃ fn ∈ new, fn.node_type = NodeType.file ∧ fn.file_path = some "a.rs" ∧
        fn.id = 1) ∧
      ∀ m ∈ new, 1 ≤ m.id) ∧
    ∀ (st2 : Store) (crawled : List String), "a.rs" ∈ crawled →
      ∀ m ∈ st2.nodes, m.file_path = some "a.rs" →
        m ∈ (cleanupStaleNodes st2 crawled).nodes :=
  c4_nodes_accumulate (fun s => s) "a.rs" "pub fn main();"
    ⟨[⟨0, "a.rs", NodeType.file, some "a.rs", some 1, some 1, none, some "old"⟩],
      [], [], [], 1⟩ (by decide)

/-- Claim C5, counterexample: ingest_file reads with std::fs::read_to_string,
which fails outright on non-UTF-8 bytes; a file of invalid bytes yields a
per-file error and no ingestion at all — the store is left untouched —
rather than being decoded lossily and indexed. -/
theorem c5_lossy_read_counterexample :
    ingestFile (fun s => s) [("b.rs", FileData.invalid)] emptyStore "b.rs" =
      (emptyStore, none) := rfl

/-- Claim C5, amended: ingest_file decodes strictly, not lossily: whenever
reading the file fails (non-UTF-8 bytes or an I/O error), ingest_file
returns no node count — the error that ingest_directory tallies for the
file — and performs no store write. -/
theorem c5_strict_read_amended (hash : String → String) (fs : FS) (st : Store)
    (path : String) (h : readToString fs path = none) :
    (ingestFile hash fs st path).2 = none ∧ (ingestFile hash fs st path).1 = st := by
  rw [ingestFile_of_read_none hash fs st path h]
  exact ⟨rfl, rfl⟩

/-- Witness for C5: a non-UTF-8 c.rs is rejected and the store survives
unchanged. -/
theorem c5_strict_read_amended_witness :
    (ingestFile (fun s => s) [("c.rs", FileData.invalid)] emptyStore "c.rs").2 =
        none ∧
      (ingestFile (fun s => s) [("c.rs", FileData.invalid)] emptyStore "c.rs").1 =
        emptyStore :=
  c5_strict_read_amended (fun s => s) [("c.rs", FileData.invalid)] emptyStore
    "c.rs" rfl

/-- The usize cast of an i64 column value (as usize in read_node_content):
two's-complement wrap-around modulo 2^64. -/
def usizeOfInt (x : Int) : Nat := (x % (2 ^ 64 : Int)).toNat

/-- estimate_tokens (search/mod.rs): word count times 4, divided by 3
rounding up. -/
def estimate_tokens (content : String) : Nat :=
  ((splitWhitespace content).length * 4 + 2) / 3

structure FetchResponse where
  pointer_id : Nat
  content : String
  file_path : String
  start_line : Int
  end_line : Int
  token_count : Nat
deriving DecidableEq, Repr

/-- KnowledgeGraph::get_node: the row with the given primary-key id. -/
def getNode (nodes : List Node) (nid : Nat) : Option Node :=
  nodes.find? (fun n => n.id = nid)

/-- SearchEngine::read_node_content (search/mod.rs lines 284-305). A node
without a path yields the empty string; a missing file yields the
placeholder body; end == 0 after the usize cast yields the whole file;
otherwise the 1-based inclusive range is clamped to the line count and
sliced — none models the panic when the clamped start exceeds the clamped
end. -/
def read_node_content (fsx : FS) (node : Node) : Option String :=
  match node.file_path with
  | none => some ""
  | some path =>
    match readToString fsx path with
    | none => some ("[File not found: " ++ path ++ "]")
    | some file_content =>
      let start := (max (node.start_line.getD 1) 1).toNat
      let endv := usizeOfInt (node.end_line.getD 0)
      if endv = 0 then some file_content
      else
        let lines := rustLines file_content
        let start_idx := min (start - 1) lines.length
        let end_idx := min endv lines.length
        if start_idx ≤ end_idx then
          some (String.intercalate "\n"
            ((lines.drop start_idx).take (end_idx - start_idx)))
        else none

/-- SearchEngine::fetch (search/mod.rs lines 123-143) with a cold fetch
cache, whose miss path delegates to read_node_content: resolve the node —
absent gives some none — then build the response with the word-count token
estimate over the returned content. -/
def fetch (fsx : FS) (nodes : List Node) (nid : Nat) :
    Option (Option FetchResponse) :=
  match getNode nodes nid with
  | none => some none
  | some node =>
    (read_node_content fsx node).map (fun content =>
      some ⟨node.id, content, node.file_path.getD "", node.start_line.getD 0,
        node.end_line.getD 0, estimate_tokens content⟩)

/-- Claim C8, counterexample: a stored node whose line range is inverted
(start_line 3, end_line 1) over an existing three-line file makes
read_node_content slice lines[2..1], which panics in Rust — modelled as
none — so fetch returns no response at all for a present id, instead of
the promised clamped range text with its token count. -/
theorem c8_fetch_counterexample :
    getNode [⟨1, "x", NodeType.function, some "f.txt", some 3, some 1, none,
        none⟩] 1 =
      some ⟨1, "x", NodeType.function, some "f.txt", some 3, some 1, none,
        none⟩ ∧
    fetch [("f.txt", FileData.utf8 "a\nb\nc")]
      [⟨1, "x", NodeType.function, some "f.txt", some 3, some 1, none, none⟩] 1 =
      none := ⟨rfl, rfl⟩

/-- Claim C8, amended: fetch returns some none for an absent id; for a
present node with a file path it returns the placeholder body when the file
is missing, the whole file when the end line casts to usize 0, and the
1-based inclusive line range clamped to the file length provided the
clamped range is not inverted (clamped start at most clamped end, the
panic-free case); in every returned response token_count is the word-count
estimate ceil(words * 4 / 3) of the returned content. -/
theorem c8_fetch_amended (fsx : FS) (nodes : List Node) (nid : Nat) :
    (getNode nodes nid = none → fetch fsx nodes nid = some none) ∧
    (∀ node path, getNode nodes nid = some node → node.file_path = some path →
      readToString fsx path = none →
      fetch fsx nodes nid = some (some ⟨node.id,
        "[File not found: " ++ path ++ "]", node.file_path.getD "",
        node.start_line.getD 0, node.end_line.getD 0,
        estimate_tokens ("[File not found: " ++ path ++ "]")⟩)) ∧
    (∀ node path content, getNode nodes nid = some node →
      node.file_path = some path → readToString fsx path = some content →
      usizeOfInt (node.end_line.getD 0) = 0 →
      fetch fsx nodes nid = some (some ⟨node.id, content, node.file_path.getD "",
        node.start_line.getD 0, node.end_line.getD 0,
        estimate_tokens content⟩)) ∧
    (∀ node path content, getNode nodes nid = some node →
      node.file_path = some path → readToString fsx path = some content →
      usizeOfInt (node.end_line.getD 0) ≠ 0 →
      (max (node.start_line.getD 1) 1).toNat - 1 ≤
        usizeOfInt (node.end_line.getD 0) →
      fetch fsx nodes nid = some (some ⟨node.id,
        String.intercalate "\n" (((rustLines content).drop
            (min ((max (node.start_line.getD 1) 1).toNat - 1)
              (rustLines content).length)).take
          (min (usizeOfInt (node.end_line.getD 0)) (rustLines content).length -
            min ((max (node.start_line.getD 1) 1).toNat - 1)
              (rustLines content).length)),
        node.file_path.getD "", node.start_line.getD 0, node.end_line.getD 0,
        estimate_tokens (String.intercalate "\n" (((rustLines content).drop
            (min ((max (node.start_line.getD 1) 1).toNat - 1)
              (rustLines content).length)).take
          (min (usizeOfInt (node.end_line.getD 0)) (rustLines content).length -
            min ((max (node.start_line.getD 1) 1).toNat - 1)
              (rustLines content).length)))⟩)) ∧
    (∀ resp, fetch fsx nodes nid = some (some resp) →
      resp.token_count = estimate_tokens resp.content) := by
  refine ⟨?_, ?_, ?_, ?_, ?_⟩
  · intro hget
    simp only [fetch, hget]
  · intro node path hget hfp hrd
    simp only [fetch, hget, read_node_content, hfp, hrd, Option.map_some']
  · intro node path content hget hfp hrd hend
    simp only [fetch, hget, read_node_content, hfp, hrd]
    rw [if_pos hend]
    rfl
  · intro node path content hget hfp hrd hend hle
    simp only [fetch, hget, read_node_content, hfp, hrd]
    rw [if_neg hend, if_pos (min_le_min hle (le_refl (rustLines content).length))]
    rfl
  · intro resp h
    have h2 : (match getNode nodes nid with
        | none => some none
        | some node => (read_node_content fsx node).map (fun content =>
            some ⟨node.id, content, node.file_path.getD "",
              node.start_line.getD 0, node.end_line.getD 0,
              estimate_tokens content⟩)) = some (some resp) := h
    rcases hget : getNode nodes nid with _ | node
    · rw [hget] at h2
      have h3 : some (none : Option FetchResponse) = some (some resp) := h2
      exact Option.noConfusion (Option.some.inj h3)
    · rw [hget] at h2
      have h3 : (read_node_content fsx node).map (fun content =>
          some ⟨node.id, content, node.file_path.getD "",
            node.start_line.getD 0, node.end_line.getD 0,
            estimate_tokens content⟩) = some (some resp) := h2
      rcases hr : read_node_content fsx node with _ | content
      · rw [hr] at h3
        exact Option.noConfusion h3
      · rw [hr] at h3
        simp only [Option.map_some'] at h3
        have h4 := Option.some.inj (Option.some.inj h3)
        cases h4
        rfl

/-- Witness for C8: fetching node 2 of g.txt, lines 2-3 of a four-line
file, returns the joined slice with its word-count token estimate. -/
theorem c8_fetch_amended_witness :
    fetch [("g.txt", FileData.utf8 "l1\nl2\nl3\nl4")]
      [⟨2, "y", NodeType.function, some "g.txt", some 2, some 3, none, none⟩] 2 =
      some (some ⟨2, "l2\nl3", "g.txt", 2, 3, 3⟩) := by
  have h := (c8_fetch_amended [("g.txt", FileData.utf8 "l1\nl2\nl3\nl4")]
    [⟨2, "y", NodeType.function, some "g.txt", some 2, some 3, none, none⟩]
    2).2.2.2.1
    ⟨2, "y", NodeType.function, some "g.txt", some 2, some 3, none, none⟩
    "g.txt" "l1\nl2\nl3\nl4" rfl rfl rfl (by decide) (by decide)
  exact h

end Hermes
